import Mathlib

/-!
Verification of the decision-tree implementation in
src/DecisionTree/DecisionTree/DecisionTree.py.

Shallow embedding conventions:
* A Python in-memory scalar (after the loader has converted every
  float-parseable string to a float) is a `Val`: either a number
  (Python float, modelled exactly by a rational) or a categorical
  string.  Strings that remain after loading are not float-parseable,
  so `IsFloat` is true exactly on numbers.
* Python operations that can raise (IndexError on out-of-range
  indexing, TypeError on comparing a float with a string or on
  applying list/set methods to the wrong container) are modelled with
  `Option`: `none` is an uncaught exception.
* Python dicts and sets are modelled as insertion-ordered lists:
  a dict is an association list, a set is a duplicate-free list.
-/

/-- A scalar value of the loaded tabular data: numeric (Python float,
modelled exactly) or categorical (string). -/
inductive Val where
  | num : ℚ → Val
  | str : String → Val
deriving DecidableEq, Repr

/-- Python equality (the == operator) on loaded scalars: numbers compare
numerically, strings compare as strings, and a number never equals a
string.  On `Val` this coincides with structural equality. -/
def pyEq : Val → Val → Bool
  | .num a, .num b => a = b
  | .str a, .str b => a = b
  | _, _ => false

theorem pyEq_iff_eq (a b : Val) : pyEq a b = true ↔ a = b := by
  cases a <;> cases b <;> simp [pyEq]

/-- Python comparison a <= b on loaded scalars.  Comparing a number with
a string raises TypeError, modelled by `none`.  Two strings compare
lexicographically. -/
def pyLe : Val → Val → Option Bool
  | .num a, .num b => some (decide (a ≤ b))
  | .str a, .str b => some (decide (a ≤ b))
  | _, _ => none

/-- Embedding of IsFloat (DecisionTree.py lines 97-102) on loaded
scalars: float(value) succeeds exactly on numbers, because the loader
already converted every float-parseable string to a float, so the
remaining strings fail to parse. -/
def IsFloat : Val → Bool
  | .num _ => true
  | .str _ => false

/-- Embedding of the Question class (DecisionTree.py lines 16-33): the
attr index it tests and the reference value it compares against.
The BranchOrLeaf and DecisionTree back-reference fields play no role in
Match and are omitted. -/
structure Question where
  Attribute : Nat
  Value : Val
deriving DecidableEq, Repr

/-- Embedding of Question.Match (DecisionTree.py lines 28-33):
read val = row[Attribute] (IndexError when out of range), then branch
on IsFloat(val) — the type of the ROW value, not of the reference
value: numeric row values use val <= self.Value, others use
val == self.Value. -/
def Question.Match (q : Question) (row : List Val) : Option Bool :=
  match row.get? q.Attribute with
  | none => none
  | some val => if IsFloat val then pyLe val q.Value else some (pyEq val q.Value)

/-- Modelled from the spec's words for claim C1: the same comparison
semantics but with the threshold/equality choice determined by the type
of the predicate's referenceValue (IsFloat q.Value) instead of the type
of the row value. -/
def Match_spec (q : Question) (row : List Val) : Option Bool :=
  match row.get? q.Attribute with
  | none => none
  | some val => if IsFloat q.Value then pyLe val q.Value else some (pyEq val q.Value)

/-- Claim C1, counterexample: at row value "Green" with numeric
reference value 3, the code's Match returns False (equality branch,
chosen because the ROW value is categorical), while the claim's reading
(threshold branch, chosen because the REFERENCE value is numeric) would
compare a string against a number, which raises TypeError.  So the
branch choice is not determined by the referenceValue's type. -/
theorem C1_counterexample :
    Question.Match ⟨0, .num 3⟩ [.str "Green"] = some false ∧
    Match_spec ⟨0, .num 3⟩ [.str "Green"] = none := by
  constructor <;> rfl

/-- Claim C1, amended: Match branches on the type of the row's value at
attributeIndex — threshold (val <= referenceValue) when the row value is
numeric, exact equality otherwise; whenever the row value and the
referenceValue have the same numeric-ness this coincides with the
claim's description (dispatch on the referenceValue's type). -/
theorem C1_amended (q : Question) (row : List Val) (val : Val)
    (hget : row.get? q.Attribute = some val) :
    Question.Match q row =
      (if IsFloat val then pyLe val q.Value else some (pyEq val q.Value)) ∧
    (IsFloat val = IsFloat q.Value → Question.Match q row = Match_spec q row) := by
  rw [List.get?_eq_getElem?] at hget
  constructor
  · simp [Question.Match, hget]
  · intro hty
    simp [Question.Match, Match_spec, hget, hty]

/-- Witness for C1_amended at a concrete numeric row value and numeric
reference value. -/
theorem C1_amended_witness :
    Question.Match ⟨0, .num 5⟩ [.num 3] =
      (if IsFloat (.num 3) then pyLe (.num 3) (.num 5)
       else some (pyEq (.num 3) (.num 5))) ∧
    (IsFloat (.num 3) = IsFloat (Question.mk 0 (.num 5)).Value →
      Question.Match ⟨0, .num 5⟩ [.num 3] = Match_spec ⟨0, .num 5⟩ [.num 3]) :=
  C1_amended ⟨0, .num 5⟩ [.num 3] (.num 3) rfl

/-- Embedding of the tree node types (DecisionTree.py lines 43-88): a
DecisionNode holds a list of questions and a same-length list of
branches; a LeafNode holds its label counts (a Python dict, modelled as
an insertion-ordered association list).  The Depth field is only used
for printing and is omitted. -/
inductive Node where
  | leaf (counts : List (Val × Nat))
  | node (questions : List Question) (branches : List Node)
deriving Repr

/-- Index of the first question in the list matching the row
(DecisionTree.py lines 54-55): some (some i) when question i is the
first match, some none when no question matched, and none when a Match
raises before any match is found. -/
def firstMatchIdx : List Question → List Val → Option (Option Nat)
  | [], _ => some none
  | q :: rest, row =>
    match q.Match row with
    | none => none
    | some true => some (some 0)
    | some false => (firstMatchIdx rest row).map (fun r => r.map Nat.succ)

/-- Embedding of LeafNode.Decide and DecisionNode.Decide
(DecisionTree.py lines 53-57, 83-84): a leaf returns its counts
ignoring the row; a decision node delegates to the branch of the first
matching question, and to Branches[0] when no question matched.
Out-of-range branch indexing (IndexError) and Match exceptions are
none. -/
def Node.Decide : Node → List Val → Option (List (Val × Nat))
  | .leaf counts, _ => some counts
  | .node qs brs, row =>
    match firstMatchIdx qs row with
    | none => none
    | some (some i) =>
      match h : brs.get? i with
      | some b => b.Decide row
      | none => none
    | some none =>
      match h : brs.get? 0 with
      | some b => b.Decide row
      | none => none
termination_by n => sizeOf n
decreasing_by
  all_goals
    have hm := List.get?_mem h
    have := List.sizeOf_lt_of_mem hm
    simp only [Node.node.sizeOf_spec]
    omega

/-- When every question's Match is defined on the row, firstMatchIdx
does not raise. -/
theorem firstMatchIdx_isSome (qs : List Question) (row : List Val)
    (hdef : ∀ q ∈ qs, (q.Match row).isSome) :
    firstMatchIdx qs row ≠ none := by
  induction qs with
  | nil => simp [firstMatchIdx]
  | cons q rest ih =>
    have hq : (q.Match row).isSome := hdef q (by simp)
    match hm : q.Match row with
    | none => rw [hm] at hq; simp at hq
    | some true => simp [firstMatchIdx, hm]
    | some false =>
      have := ih (fun p hp => hdef p (by simp [hp]))
      simp [firstMatchIdx, hm]
      exact fun hnone => this (by simp [hnone])

/-- A matched index returned by firstMatchIdx is in range. -/
theorem firstMatchIdx_lt (qs : List Question) (row : List Val) (i : Nat)
    (hfm : firstMatchIdx qs row = some (some i)) : i < qs.length := by
  induction qs generalizing i with
  | nil => simp [firstMatchIdx] at hfm
  | cons q rest ih =>
    match hm : q.Match row with
    | none => simp [firstMatchIdx, hm] at hfm
    | some true =>
      simp [firstMatchIdx, hm] at hfm
      simp [← hfm]
    | some false =>
      simp [firstMatchIdx, hm] at hfm
      match hrest : firstMatchIdx rest row with
      | none => rw [hrest] at hfm; simp at hfm
      | some none => rw [hrest] at hfm; simp at hfm
      | some (some j) =>
        rw [hrest] at hfm
        simp at hfm
        have := ih j hrest
        simp only [List.length_cons]
        omega

/-- Claim C3: for a DecisionNode with non-empty, equal-length question
and branch lists, and a row on which every question's Match is defined,
Decide delegates to the branch at the index of the first matching
question; when no question matched it delegates to Branches[0]; and the
question scan itself never raises. -/
theorem C3_decide_delegates (qs : List Question) (brs : List Node) (row : List Val)
    (hlen : qs.length = brs.length) (hne : qs ≠ [])
    (hdef : ∀ q ∈ qs, (q.Match row).isSome) :
    (∀ i, firstMatchIdx qs row = some (some i) →
        ∃ b, brs.get? i = some b ∧ (Node.node qs brs).Decide row = b.Decide row) ∧
    (firstMatchIdx qs row = some none →
        ∃ b, brs.get? 0 = some b ∧ (Node.node qs brs).Decide row = b.Decide row) ∧
    firstMatchIdx qs row ≠ none := by
  refine ⟨?_, ?_, firstMatchIdx_isSome qs row hdef⟩
  · intro i hfm
    have hi : i < brs.length := hlen ▸ firstMatchIdx_lt qs row i hfm
    match hb : brs.get? i with
    | none => rw [List.get?_eq_none] at hb; omega
    | some b =>
      refine ⟨b, rfl, ?_⟩
      simp only [Node.Decide, hfm]
      split
      · rename_i b2 heq
        rw [hb] at heq
        injection heq with h3
        rw [← h3]
      · rename_i heq
        rw [hb] at heq
        exact Option.noConfusion heq
  · intro hfm
    have hbr : 0 < brs.length := by
      rw [← hlen]
      exact List.length_pos.2 hne
    match hb : brs.get? 0 with
    | none => rw [List.get?_eq_none] at hb; omega
    | some b =>
      refine ⟨b, rfl, ?_⟩
      simp only [Node.Decide, hfm]
      split
      · rename_i b2 heq
        rw [hb] at heq
        injection heq with h3
        rw [← h3]
      · rename_i heq
        rw [hb] at heq
        exact Option.noConfusion heq

/-- Witness for C3_decide_delegates on a concrete two-way categorical
node: the row matched the second question, so Decide returns the second
branch's counts. -/
theorem C3_decide_delegates_witness :
    (∀ i, firstMatchIdx [⟨0, .str "A"⟩, ⟨0, .str "B"⟩] [.str "B"] = some (some i) →
        ∃ b, [Node.leaf [(.str "x", 1)], Node.leaf [(.str "y", 2)]].get? i = some b ∧
          (Node.node [⟨0, .str "A"⟩, ⟨0, .str "B"⟩]
            [Node.leaf [(.str "x", 1)], Node.leaf [(.str "y", 2)]]).Decide [.str "B"] =
            b.Decide [.str "B"]) ∧
    (firstMatchIdx [⟨0, .str "A"⟩, ⟨0, .str "B"⟩] [.str "B"] = some none →
        ∃ b, [Node.leaf [(.str "x", 1)], Node.leaf [(.str "y", 2)]].get? 0 = some b ∧
          (Node.node [⟨0, .str "A"⟩, ⟨0, .str "B"⟩]
            [Node.leaf [(.str "x", 1)], Node.leaf [(.str "y", 2)]]).Decide [.str "B"] =
            b.Decide [.str "B"]) ∧
    firstMatchIdx [⟨0, .str "A"⟩, ⟨0, .str "B"⟩] [.str "B"] ≠ none :=
  C3_decide_delegates _ _ _ (by decide) (by decide) (by decide)

/-- A per-attr candidate container as built by GetPossibleValues /
GetChildPossibleValues: a Python list (numeric columns) or a Python set
(categorical columns), the set modelled as an insertion-ordered
duplicate-free list. -/
inductive PyContainer where
  | lst : List Val → PyContainer
  | set : List Val → PyContainer
deriving DecidableEq, Repr

/-- Elements of a candidate container, in iteration order. -/
def PyContainer.toList : PyContainer → List Val
  | .lst l => l
  | .set s => s

/-- Python len() of a candidate container. -/
def PyContainer.len (c : PyContainer) : Nat := c.toList.length

/-- Result of IsFloat applied to a whole candidate container or to None
(as CanSplit does with globalUniqueValues[attr]): float() of a
list, a set or None raises TypeError, which IsFloat catches, so the
result is False on every such argument. -/
def IsFloatContainer : Option PyContainer → Bool := fun _ => false

/-- Python set.add on an insertion-ordered duplicate-free list
(membership tested with ==, which on loaded scalars coincides with
structural equality). -/
def setAdd (s : List Val) (v : Val) : List Val :=
  if v ∈ s then s else s ++ [v]

/-- Boolean comparison used to model Python list.sort on candidate
lists.  The builder only ever sorts all-numeric lists (sorting a mixed
list would raise TypeError); strings and the mixed cases are given a
conventional order that no theorem relies on. -/
def valLeb : Val → Val → Bool
  | .num a, .num b => decide (a ≤ b)
  | .str a, .str b => decide (a ≤ b)
  | .num _, .str _ => true
  | .str _, .num _ => false

/-- Insertion of a value into a sorted list (helper for sortVals). -/
def insertSorted (v : Val) : List Val → List Val
  | [] => [v]
  | w :: rest => if valLeb v w then v :: w :: rest else w :: insertSorted v rest

/-- Insertion sort modelling Python list.sort() on candidate lists. -/
def sortVals : List Val → List Val
  | [] => []
  | v :: rest => insertSorted v (sortVals rest)

/-- Model of the Python idiom list(set(l)) followed by .sort():
deduplicate, then sort ascending. -/
def dedupSort (l : List Val) : List Val := sortVals l.dedup

/-- First question in the list whose Match on the row is True — the
for/break pattern of GetChildPossibleValues (DecisionTree.py lines
253-256 and 259-262).  none models an exception raised by some Match
before a match is found; some none means no question matched. -/
def firstMatching : List Question → List Val → Option (Option Question)
  | [], _ => some none
  | q :: rest, row =>
    match q.Match row with
    | none => none
    | some true => some (some q)
    | some false => firstMatching rest row

/-- Build context: the fields of the DecisionTree object that the
recursive builder reads — len(AttributeNames), GlobalUniqueValues and
GlobalQuestions. -/
structure TreeCtx where
  attrCount : Nat
  GlobalUniqueValues : List (Option PyContainer)
  GlobalQuestions : List (List Question)

/-- One iteration of the inner loop of GetChildPossibleValues
(DecisionTree.py lines 250-262) for a single (columnIndex, word) pair of
the row: pick the list branch when the word is numeric and the set
branch otherwise, find the first matching global question of that
column, and record its Value.  Errors modelled: IndexError on
possibleValues[i] or GlobalQuestions[i], AttributeError when the column
previously used the other container kind (mixed-typed column), and any
exception raised by Match. -/
def childScanStep (gqs : List (List Question)) (row : List Val)
    (pv : List (Option PyContainer)) (iw : Nat × Val) : Option (List (Option PyContainer)) := do
  let cur ← pv.get? iw.1
  let qs ← gqs.get? iw.1
  if IsFloat iw.2 then
    let l ← match cur with
      | none => some ([] : List Val)
      | some (.lst l) => some l
      | some (.set _) => none
    match (← firstMatching qs row) with
    | some q => pure (pv.set iw.1 (some (.lst (l ++ [q.Value]))))
    | none => pure (pv.set iw.1 (some (.lst l)))
  else
    let s ← match cur with
      | none => some ([] : List Val)
      | some (.set s) => some s
      | some (.lst _) => none
    match (← firstMatching qs row) with
    | some q => pure (pv.set iw.1 (some (.set (setAdd s q.Value))))
    | none => pure (pv.set iw.1 (some (.set s)))

/-- The scan of one row by GetChildPossibleValues: fold childScanStep
over enumerate(row). -/
def childScanRow (gqs : List (List Question)) (pv : List (Option PyContainer))
    (row : List Val) : Option (List (Option PyContainer)) :=
  row.enum.foldlM (childScanStep gqs row) pv

/-- Final pass of GetChildPossibleValues (DecisionTree.py lines
264-267): every list container is deduplicated and sorted; sets and
None entries are left unchanged. -/
def finalizeChild (pv : List (Option PyContainer)) : List (Option PyContainer) :=
  pv.map (fun c => match c with
    | some (.lst l) => some (.lst (dedupSort l))
    | c => c)

/-- Embedding of DecisionTree.GetChildPossibleValues (DecisionTree.py
lines 247-269): start from [None] * len(AttributeNames), scan every row
recording, per column, the Value of the first global question the row
matched, then deduplicate-and-sort the list containers. -/
def GetChildPossibleValues (ctx : TreeCtx) (dataSet : List (List Val)) :
    Option (List (Option PyContainer)) := do
  let pv ← dataSet.foldlM (fun pv row => childScanRow ctx.GlobalQuestions pv row)
    (List.replicate ctx.attrCount none)
  pure (finalizeChild pv)

/-- Match of the malformed container-valued question built inside
CanSplit's numeric branch (DecisionTree.py line 387): the question's
Value is the whole container globalUniqueValues[attr], so Match
compares row[attr] against a list/set/None: a numeric row value
raises TypeError (float <= container), a categorical row value compares
== against the container, which is simply False. -/
def matchContQuestion (attr : Nat) (row : List Val) : Option Bool :=
  match row.get? attr with
  | none => none
  | some val => if IsFloat val then none else some false

/-- The row walk of CanSplit's numeric branch (DecisionTree.py lines
388-398): signed counter, return True on a sign flip; falling off the
end of the rows (some false here) falls through to the next attr. -/
def canSplitWalk (attr : Nat) : List (List Val) → Int → Option Bool
  | [], _ => some false
  | row :: rest, answerAbs =>
    match matchContQuestion attr row with
    | none => none
    | some didMatch =>
      if didMatch then
        if answerAbs < 0 then some true
        else canSplitWalk attr rest (answerAbs + 1)
      else
        if answerAbs > 0 then some true
        else canSplitWalk attr rest (answerAbs - 1)

/-- The attr loop of CanSplit (DecisionTree.py lines 383-401):
for each attr, if IsFloat(globalUniqueValues[attr]) — which
is always False, since the argument is a container or None — walk the
rows, else test whether the attr has more than one local
candidate; len(None) raises TypeError. -/
def canSplitLoop (dataSet : List (List Val))
    (uniqueValues globalUniqueValues : List (Option PyContainer)) :
    List Nat → Option Bool
  | [] => some false
  | attr :: rest => do
    let g ← globalUniqueValues.get? attr
    if IsFloatContainer g then
      let w ← canSplitWalk attr dataSet 0
      if w then pure true
      else canSplitLoop dataSet uniqueValues globalUniqueValues rest
    else
      let u ← uniqueValues.get? attr
      let c ← u
      if c.len > 1 then pure true
      else canSplitLoop dataSet uniqueValues globalUniqueValues rest

/-- Embedding of DecisionTree.CanSplit (DecisionTree.py lines 379-403):
not splittable when the label column's local candidate container has
exactly one element, else loop over the non-label attributes. -/
def CanSplit (dataSet : List (List Val))
    (uniqueValues globalUniqueValues : List (Option PyContainer)) : Option Bool := do
  let lastEntry ← uniqueValues.get? (uniqueValues.length - 1)
  let lastCont ← lastEntry
  if lastCont.len = 1 then return false
  canSplitLoop dataSet uniqueValues globalUniqueValues
    (List.range (uniqueValues.length - 1))

/-- The row walk of claim C2's reading of the numeric branch, with an
actual single-candidate predicate: increment the signed counter on a
Match, decrement on a non-match, return True on the first sign flip. -/
def canSplitWalk_spec (q : Question) : List (List Val) → Int → Option Bool
  | [], _ => some false
  | row :: rest, answerAbs =>
    match q.Match row with
    | none => none
    | some didMatch =>
      if didMatch then
        if answerAbs < 0 then some true
        else canSplitWalk_spec q rest (answerAbs + 1)
      else
        if answerAbs > 0 then some true
        else canSplitWalk_spec q rest (answerAbs - 1)

/-- Attribute loop of the claim's reading of CanSplit: a non-label
attribute whose global candidate container is a (numeric) list is
walked with the predicate of the attribute's single global candidate —
the claim speaks of "a single global-candidate predicate", so when the
list has several candidates we take the first; the counterexample below
uses a one-candidate list, for which this reading is unambiguous.
Attributes with a set container are categorical: splittable iff more
than one local candidate. -/
def canSplitLoop_spec (dataSet : List (List Val))
    (uniqueValues globalUniqueValues : List (Option PyContainer)) :
    List Nat → Option Bool
  | [] => some false
  | a :: rest => do
    let g ← globalUniqueValues.get? a
    match g with
    | some (.lst (v :: _)) =>
      let w ← canSplitWalk_spec ⟨a, v⟩ dataSet 0
      if w then pure true
      else canSplitLoop_spec dataSet uniqueValues globalUniqueValues rest
    | _ =>
      let u ← uniqueValues.get? a
      let c ← u
      if c.len > 1 then pure true
      else canSplitLoop_spec dataSet uniqueValues globalUniqueValues rest

/-- Modelled from the spec's words for claim C2: CanSplit as the claim
describes it — pure-label test, then numeric attributes use the
sign-flip row walk and categorical attributes the local-candidate-count
test. -/
def CanSplit_spec (dataSet : List (List Val))
    (uniqueValues globalUniqueValues : List (Option PyContainer)) : Option Bool := do
  let lastEntry ← uniqueValues.get? (uniqueValues.length - 1)
  let lastCont ← lastEntry
  if lastCont.len = 1 then return false
  canSplitLoop_spec dataSet uniqueValues globalUniqueValues
    (List.range (uniqueValues.length - 1))

/-- Claim C2, counterexample: a subset whose single non-label attr
is numeric with one global candidate 5.0 and rows 1.0, 10.0, 2.0 (labels
Yes, No, Yes).  The claim's numeric walk flips sign at the second row
(1.0 <= 5.0 matched, 10.0 <= 5.0 did not), so the claim says
splittable; the code, however, never takes the numeric branch — IsFloat
of the whole candidate container is always False — and instead applies
the categorical local-candidate-count test, which sees the single local
candidate [5.0] and answers not splittable. -/
theorem C2_counterexample :
    CanSplit
      [[.num 1, .str "Yes"], [.num 10, .str "No"], [.num 2, .str "Yes"]]
      [some (.lst [.num 5]), some (.set [.str "Yes", .str "No"])]
      [some (.lst [.num 5]), some (.set [.str "Yes", .str "No"])] = some false ∧
    CanSplit_spec
      [[.num 1, .str "Yes"], [.num 10, .str "No"], [.num 2, .str "Yes"]]
      [some (.lst [.num 5]), some (.set [.str "Yes", .str "No"])]
      [some (.lst [.num 5]), some (.set [.str "Yes", .str "No"])] = some true := by
  constructor <;> rfl

/-- Characterization of CanSplit's attribute loop: since
IsFloat(globalUniqueValues[a]) is False for every container, the loop
never enters the numeric row walk and returns True exactly when some
listed attribute has more than one local candidate. -/
theorem canSplitLoop_char (dataSet : List (List Val))
    (uniq glob : List (Option PyContainer)) (locs : Nat → PyContainer)
    (L : List Nat)
    (hglob : ∀ a ∈ L, (glob.get? a).isSome)
    (hloc : ∀ a ∈ L, uniq.get? a = some (some (locs a))) :
    canSplitLoop dataSet uniq glob L = some (decide (∃ a ∈ L, 1 < (locs a).len)) := by
  induction L with
  | nil => simp [canSplitLoop]
  | cons a rest ih =>
    obtain ⟨g, hg⟩ := Option.isSome_iff_exists.1 (hglob a (by simp))
    have hu := hloc a (by simp)
    have hrec := ih (fun x hx => hglob x (by simp [hx]))
      (fun x hx => hloc x (by simp [hx]))
    rw [List.get?_eq_getElem?] at hg hu
    by_cases hlen : 1 < (locs a).len
    · simp [canSplitLoop, hg, hu, IsFloatContainer, hlen]
    · simp [canSplitLoop, hg, hu, IsFloatContainer, hlen, hrec]

/-- Claim C2, amended: the label-purity test is as claimed (false when
the label column's local candidate set has exactly one value), but the
numeric sign-flip walk is unreachable — the code guards it with
IsFloat(globalUniqueValues[attribute]), whose argument is a whole
container (list/set/None), so the guard is always False — and every
non-label attribute, numeric or categorical, is instead tested by the
local-candidate-count rule: CanSplit returns true iff the label column
is not pure and some non-label attribute has more than one local
candidate. -/
theorem C2_amended (dataSet : List (List Val))
    (uniq glob : List (Option PyContainer)) (lastCont : PyContainer)
    (locs : Nat → PyContainer)
    (hlast : uniq.get? (uniq.length - 1) = some (some lastCont))
    (hglob : ∀ a, a < uniq.length - 1 → (glob.get? a).isSome)
    (hloc : ∀ a, a < uniq.length - 1 → uniq.get? a = some (some (locs a))) :
    (CanSplit dataSet uniq glob).isSome ∧
    (CanSplit dataSet uniq glob = some true ↔
      lastCont.len ≠ 1 ∧ ∃ a < uniq.length - 1, 1 < (locs a).len) := by
  have hloop := canSplitLoop_char dataSet uniq glob locs
    (List.range (uniq.length - 1))
    (fun a ha => hglob a (List.mem_range.1 ha))
    (fun a ha => hloc a (List.mem_range.1 ha))
  rw [List.get?_eq_getElem?] at hlast
  by_cases hpure : lastCont.len = 1
  · constructor
    · simp [CanSplit, hlast, hpure]
    · simp [CanSplit, hlast, hpure]
  · constructor
    · simp [CanSplit, hlast, hpure, hloop]
    · rw [show (CanSplit dataSet uniq glob) =
          canSplitLoop dataSet uniq glob (List.range (uniq.length - 1)) by
        simp [CanSplit, hlast, hpure]]
      rw [hloop]
      simp [hpure, List.mem_range]

/-- Witness for C2_amended at the counterexample's inputs: the label
column has two local candidates but the single non-label attribute has
only one, so CanSplit evaluates (without raising) to false. -/
theorem C2_amended_witness :
    (CanSplit
      [[.num 1, .str "Yes"], [.num 10, .str "No"], [.num 2, .str "Yes"]]
      [some (.lst [.num 5]), some (.set [.str "Yes", .str "No"])]
      [some (.lst [.num 5]), some (.set [.str "Yes", .str "No"])]).isSome ∧
    (CanSplit
      [[.num 1, .str "Yes"], [.num 10, .str "No"], [.num 2, .str "Yes"]]
      [some (.lst [.num 5]), some (.set [.str "Yes", .str "No"])]
      [some (.lst [.num 5]), some (.set [.str "Yes", .str "No"])] = some true ↔
      (PyContainer.set [.str "Yes", .str "No"]).len ≠ 1 ∧
      ∃ a < ([some (PyContainer.lst [Val.num 5]),
              some (PyContainer.set [Val.str "Yes", Val.str "No"])] :
              List (Option PyContainer)).length - 1,
        1 < ((fun _ => PyContainer.lst [Val.num 5]) a).len) :=
  C2_amended _ _ _ _ _ (by decide) (by decide) (by decide)

/-- The confusion counters accumulated by DecisionTree.Decide
(DecisionTree.py lines 160-166). -/
structure ConfusionAcc where
  total : Nat
  TP : Nat
  TN : Nat
  FP : Nat
  FN : Nat
  P : Nat
  N : Nat
deriving DecidableEq, Repr

/-- Python key-membership test on a counts dict ("Yes" in counts.keys()),
modelled on the association list with Python equality. -/
def hasKey (counts : List (Val × Nat)) (v : Val) : Bool :=
  counts.any (fun p => pyEq p.1 v)

/-- The counter updates of one evaluation row given the four booleans
(DecisionTree.py lines 178-186): bump total, bump P or N from the true
label, then the if/elif chain over the guessed/actual combinations. -/
def updateFlags (acc : ConfusionAcc)
    (guessedTrue guessedFalse wasTrue wasFalse : Bool) : ConfusionAcc :=
  let acc := { acc with total := acc.total + 1 }
  let acc := if wasTrue then { acc with P := acc.P + 1 } else { acc with N := acc.N + 1 }
  if guessedTrue && wasTrue then { acc with TP := acc.TP + 1 }
  else if guessedFalse && wasFalse then { acc with TN := acc.TN + 1 }
  else if guessedTrue && wasFalse then { acc with FP := acc.FP + 1 }
  else if guessedFalse && wasTrue then { acc with FN := acc.FN + 1 }
  else acc

/-- The per-row confusion update of DecisionTree.Decide (DecisionTree.py
lines 171-186): guessed flags from canonical key membership in the
returned counts, actual flags from the row's true label, then the
counter updates. -/
def updateRow (acc : ConfusionAcc) (counts : List (Val × Nat)) (answer : Val) :
    ConfusionAcc :=
  updateFlags acc
    (hasKey counts (.str "Yes") || hasKey counts (.num 1))
    (hasKey counts (.str "No") || hasKey counts (.num 0))
    (pyEq answer (.str "Yes") || pyEq answer (.num 1))
    (pyEq answer (.str "No") || pyEq answer (.num 0))

/-- The metric derivation of DecisionTree.Decide (DecisionTree.py lines
188-197): accuracy, precision and recall as percentages, with sentinel
-1 whenever the corresponding denominator is zero.  The function is
total — the guarded divisions can never raise ZeroDivisionError. -/
def metricsOf (acc : ConfusionAcc) : ℚ × ℚ × ℚ :=
  let accuracy : ℚ :=
    if acc.P + acc.N ≠ 0 then ((acc.TP : ℚ) + acc.TN) / ((acc.P : ℚ) + acc.N) * 100
    else -1
  let precision : ℚ :=
    if acc.TP + acc.FP ≠ 0 then ((acc.TP : ℚ) / ((acc.TP : ℚ) + acc.FP)) * 100
    else -1
  let recallPct : ℚ :=
    if acc.P ≠ 0 then ((acc.TP : ℚ) / acc.P) * 100
    else -1
  (accuracy, precision, recallPct)

/-- The evaluation loop of DecisionTree.Decide over already-parsed test
rows (DecisionTree.py lines 160-210; file parsing and printing are out
of core scope): classify each row with Root.Decide, read its true label
row[len(row)-1], update the confusion counters, then derive the three
metrics. -/
def DecideEval (root : Node) (testData : List (List Val)) :
    Option (ConfusionAcc × (ℚ × ℚ × ℚ)) := do
  let acc ← testData.foldlM (fun acc row => do
      let counts ← root.Decide row
      let answer ← row.get? (row.length - 1)
      pure (updateRow acc counts answer)) ⟨0, 0, 0, 0, 0, 0, 0⟩
  pure (acc, metricsOf acc)

/-- A loaded scalar cannot satisfy both the canonical positive test
(== "Yes" or == 1) and the canonical negative test (== "No" or == 0). -/
theorem notBothLabels (answer : Val) :
    ¬((pyEq answer (.str "Yes") || pyEq answer (.num 1)) = true ∧
      (pyEq answer (.str "No") || pyEq answer (.num 0)) = true) := by
  cases answer with
  | num q =>
    simp [pyEq]
    intro h1 h2
    rw [h1] at h2
    norm_num at h2
  | str s =>
    simp [pyEq]
    intro h1 h2
    rw [h1] at h2
    simp at h2

/-- Claim C8: guessedPositive/guessedNegative are exactly the canonical
key-membership tests on the returned counts (the hypotheses hgT-hwF fix
the four booleans to the code's tests); when the guessed flags are
unambiguous (exactly one holds) and the true label is canonically
binary, exactly one of TP, TN, FP, FN is incremented, chosen by the
combined guessed/actual booleans; when both guessed flags hold, at most
one cell fires, by the fixed priority TP before TN (FP and FN never
fire then). -/
theorem C8_confusion_update (acc : ConfusionAcc) (counts : List (Val × Nat))
    (answer : Val) (gT gF wT wF : Bool)
    (hgT : gT = (hasKey counts (.str "Yes") || hasKey counts (.num 1)))
    (hgF : gF = (hasKey counts (.str "No") || hasKey counts (.num 0)))
    (hwT : wT = (pyEq answer (.str "Yes") || pyEq answer (.num 1)))
    (hwF : wF = (pyEq answer (.str "No") || pyEq answer (.num 0))) :
    (gT ≠ gF → (wT || wF) = true →
      (updateRow acc counts answer).TP + (updateRow acc counts answer).TN +
        (updateRow acc counts answer).FP + (updateRow acc counts answer).FN =
        acc.TP + acc.TN + acc.FP + acc.FN + 1 ∧
      (gT = true → wT = true → (updateRow acc counts answer).TP = acc.TP + 1) ∧
      (gF = true → wF = true → (updateRow acc counts answer).TN = acc.TN + 1) ∧
      (gT = true → wF = true → (updateRow acc counts answer).FP = acc.FP + 1) ∧
      (gF = true → wT = true → (updateRow acc counts answer).FN = acc.FN + 1)) ∧
    (gT = true → gF = true → (wT || wF) = true →
      ((wT = true →
          (updateRow acc counts answer).TP = acc.TP + 1 ∧
          (updateRow acc counts answer).TN = acc.TN ∧
          (updateRow acc counts answer).FP = acc.FP ∧
          (updateRow acc counts answer).FN = acc.FN) ∧
       (wT = false →
          (updateRow acc counts answer).TP = acc.TP ∧
          (updateRow acc counts answer).TN = acc.TN + 1 ∧
          (updateRow acc counts answer).FP = acc.FP ∧
          (updateRow acc counts answer).FN = acc.FN))) := by
  have hconflict := notBothLabels answer
  rw [← hwT, ← hwF] at hconflict
  have hur : updateRow acc counts answer = updateFlags acc gT gF wT wF := by
    rw [updateRow, hgT, hgF, hwT, hwF]
  rw [hur]
  cases gT <;> cases gF <;> cases wT <;> cases wF <;>
    simp_all [updateFlags] <;> omega

/-- Witness for C8_confusion_update: a leaf predicting {"Yes": 2} and a
true label "Yes" — unambiguous positive guess, actual positive. -/
theorem C8_confusion_update_witness :
    ((true : Bool) ≠ (false : Bool) → ((true : Bool) || false) = true →
      (updateRow ⟨0, 0, 0, 0, 0, 0, 0⟩ [(.str "Yes", 2)] (.str "Yes")).TP +
        (updateRow ⟨0, 0, 0, 0, 0, 0, 0⟩ [(.str "Yes", 2)] (.str "Yes")).TN +
        (updateRow ⟨0, 0, 0, 0, 0, 0, 0⟩ [(.str "Yes", 2)] (.str "Yes")).FP +
        (updateRow ⟨0, 0, 0, 0, 0, 0, 0⟩ [(.str "Yes", 2)] (.str "Yes")).FN =
        0 + 0 + 0 + 0 + 1 ∧
      ((true : Bool) = true → (true : Bool) = true →
        (updateRow ⟨0, 0, 0, 0, 0, 0, 0⟩ [(.str "Yes", 2)] (.str "Yes")).TP = 0 + 1) ∧
      ((false : Bool) = true → (false : Bool) = true →
        (updateRow ⟨0, 0, 0, 0, 0, 0, 0⟩ [(.str "Yes", 2)] (.str "Yes")).TN = 0 + 1) ∧
      ((true : Bool) = true → (false : Bool) = true →
        (updateRow ⟨0, 0, 0, 0, 0, 0, 0⟩ [(.str "Yes", 2)] (.str "Yes")).FP = 0 + 1) ∧
      ((false : Bool) = true → (true : Bool) = true →
        (updateRow ⟨0, 0, 0, 0, 0, 0, 0⟩ [(.str "Yes", 2)] (.str "Yes")).FN = 0 + 1)) ∧
    ((true : Bool) = true → (false : Bool) = true → ((true : Bool) || false) = true →
      (((true : Bool) = true →
          (updateRow ⟨0, 0, 0, 0, 0, 0, 0⟩ [(.str "Yes", 2)] (.str "Yes")).TP = 0 + 1 ∧
          (updateRow ⟨0, 0, 0, 0, 0, 0, 0⟩ [(.str "Yes", 2)] (.str "Yes")).TN = 0 ∧
          (updateRow ⟨0, 0, 0, 0, 0, 0, 0⟩ [(.str "Yes", 2)] (.str "Yes")).FP = 0 ∧
          (updateRow ⟨0, 0, 0, 0, 0, 0, 0⟩ [(.str "Yes", 2)] (.str "Yes")).FN = 0) ∧
       ((true : Bool) = false →
          (updateRow ⟨0, 0, 0, 0, 0, 0, 0⟩ [(.str "Yes", 2)] (.str "Yes")).TP = 0 ∧
          (updateRow ⟨0, 0, 0, 0, 0, 0, 0⟩ [(.str "Yes", 2)] (.str "Yes")).TN = 0 + 1 ∧
          (updateRow ⟨0, 0, 0, 0, 0, 0, 0⟩ [(.str "Yes", 2)] (.str "Yes")).FP = 0 ∧
          (updateRow ⟨0, 0, 0, 0, 0, 0, 0⟩ [(.str "Yes", 2)] (.str "Yes")).FN = 0))) :=
  C8_confusion_update ⟨0, 0, 0, 0, 0, 0, 0⟩ [(.str "Yes", 2)] (.str "Yes")
    true false true false (by decide) (by decide) (by decide) (by decide)

/-- Claim C9: the evaluator's metrics are accuracy = (TP+TN)/(P+N)*100
when P+N > 0 and -1 otherwise, precision = TP/(TP+FP)*100 when
TP+FP > 0 and -1 otherwise, recall = TP/P*100 when P > 0 and -1
otherwise; metricsOf is a total function, so metric computation can
never raise a division-by-zero exception. -/
theorem C9_metric_sentinels (acc : ConfusionAcc) :
    (metricsOf acc).1 =
      (if 0 < acc.P + acc.N
       then (((acc.TP + acc.TN : Nat) : ℚ)) / (((acc.P + acc.N : Nat) : ℚ)) * 100
       else -1) ∧
    (metricsOf acc).2.1 =
      (if 0 < acc.TP + acc.FP
       then ((acc.TP : ℚ) / (((acc.TP + acc.FP : Nat) : ℚ))) * 100
       else -1) ∧
    (metricsOf acc).2.2 =
      (if 0 < acc.P then ((acc.TP : ℚ) / (acc.P : ℚ)) * 100 else -1) := by
  refine ⟨?_, ?_, ?_⟩ <;>
    simp only [metricsOf, Nat.pos_iff_ne_zero] <;>
    split_ifs with h1 <;>
    (try rfl) <;>
    push_cast <;>
    ring

/-- The canonical positive-label test used by Counts (DecisionTree.py
line 445): label == "Yes" or label == 1. -/
def isYesLabel (v : Val) : Bool := pyEq v (.str "Yes") || pyEq v (.num 1)

/-- Embedding of DecisionTree.Counts (DecisionTree.py lines 439-447):
scan the rows; a row whose attribute value == aElement bumps count, and
among those a row whose label (last element) is canonically positive
bumps trues; return (trues, count - trues, count).  IndexError (row
shorter than the attribute index) is none; the label access
data[len(data)-1] cannot fail on a row long enough to pass the
attribute access. -/
def Counts (aData : List (List Val)) (aElement : Val) (attrIndex : Nat) :
    Option (Nat × Nat × Nat) := do
  let tc ← aData.foldlM (fun (acc : Nat × Nat) row => do
      let v ← row.get? attrIndex
      if pyEq v aElement then
        let lab ← row.get? (row.length - 1)
        pure (if isYesLabel lab then (acc.1 + 1, acc.2 + 1) else (acc.1, acc.2 + 1))
      else pure acc) ((0, 0) : Nat × Nat)
  pure (tc.1, tc.2 - tc.1, tc.2)

/-- One iteration of GiniIndex's candidate loop (DecisionTree.py lines
428-434): read (trues, falses, count) from Counts, skip empty groups,
otherwise add (count/total) * (1 - (trues/count)^2 - (falses/count)^2)
to the running entropy. -/
def giniStep (aDataSet : List (List Val)) (attrIndex : Nat) (total : ℚ)
    (entropy : ℚ) (ele : Val) : Option ℚ := do
  let (trues, falses, count) ← Counts aDataSet ele attrIndex
  if count = 0 then pure entropy
  else pure (entropy +
    ((count : ℚ) / total) *
      (1 - ((trues : ℚ) / count) ^ 2 - ((falses : ℚ) / count) ^ 2))

/-- Embedding of DecisionTree.GiniIndex (DecisionTree.py lines 420-436):
0.0 for a single candidate; otherwise the sum over candidate values of
the per-group impurity terms.  Python float arithmetic is modelled
exactly over the rationals. -/
def GiniIndex (aDataSet : List (List Val)) (attrIndex : Nat)
    (aPossibleValues : List (Option PyContainer)) : Option ℚ := do
  let entry ← aPossibleValues.get? attrIndex
  let uniqueElements ← entry
  if uniqueElements.len = 1 then return 0
  let total : ℚ := aDataSet.length
  uniqueElements.toList.foldlM (giniStep aDataSet attrIndex total) 0

/-- Embedding of DecisionTree.FindBestSplit (DecisionTree.py lines
405-418): scan the non-label attributes (range(len(aDataSet[0]) - 1),
IndexError on an empty dataset), skip those with exactly one local
candidate, track the strictly smallest Gini value starting from the
sentinel (2.0, -1). -/
def FindBestSplit (aDataSet : List (List Val))
    (uniqueValues : List (Option PyContainer)) : Option (ℚ × Int) := do
  let row0 ← aDataSet.get? 0
  (List.range (row0.length - 1)).foldlM (fun (best : ℚ × Int) a => do
      let entry ← uniqueValues.get? a
      let cont ← entry
      if cont.len = 1 then pure best
      else do
        let g ← GiniIndex aDataSet a uniqueValues
        if g < best.1 then pure (g, (a : Int)) else pure best)
    ((2 : ℚ), (-1 : Int))

/-- Whether the row's value at the attribute column equals the
candidate element (the group membership test of Counts, total form used
to state theorems; rows too short simply do not count, which agrees
with Counts on inputs where Counts does not raise). -/
def rowMatchesEle (attrIndex : Nat) (ele : Val) (row : List Val) : Bool :=
  match row.get? attrIndex with
  | some v => pyEq v ele
  | none => false

/-- Whether the row's label (last element) is canonically positive
(total form; the empty row does not count). -/
def rowIsYes (row : List Val) : Bool :=
  match row.get? (row.length - 1) with
  | some lab => isYesLabel lab
  | none => false

theorem sum_map_add {α : Type} (l : List α) (f g : α → ℕ) :
    (l.map (fun a => f a + g a)).sum = (l.map f).sum + (l.map g).sum := by
  induction l with
  | nil => simp
  | cons a rest ih => simp [ih]; omega

theorem sum_map_indicator {α : Type} (l : List α) (p : α → Bool) :
    (l.map (fun a => if p a then 1 else 0)).sum = l.countP p := by
  induction l with
  | nil => simp
  | cons a rest ih =>
    rw [List.map_cons, List.sum_cons, List.countP_cons, ih]
    by_cases hpa : p a <;> simp [hpa] <;> omega

theorem countP_le_one_of_nodup {α : Type} (l : List α) (p : α → Bool)
    (hnd : l.Nodup) (huniq : ∀ a ∈ l, ∀ b ∈ l, p a → p b → a = b) :
    l.countP p ≤ 1 := by
  induction l with
  | nil => simp
  | cons a rest ih =>
    rw [List.countP_cons]
    rcases List.nodup_cons.1 hnd with ⟨hna, hndr⟩
    by_cases hpa : p a = true
    · have hzero : rest.countP p = 0 := by
        rw [List.countP_eq_zero]
        intro b hb hpb
        have hab : a = b := huniq a (by simp) b (by simp [hb]) hpa hpb
        exact hna (hab ▸ hb)
      simp [hzero, hpa]
    · have := ih hndr (fun x hx y hy => huniq x (by simp [hx]) y (by simp [hy]))
      simp [hpa]
      omega

theorem rowMatchesEle_iff (attrIndex : Nat) (e : Val) (r : List Val) :
    rowMatchesEle attrIndex e r = true ↔ r.get? attrIndex = some e := by
  unfold rowMatchesEle
  cases h : r.get? attrIndex with
  | none => simp
  | some v => simp [pyEq_iff_eq]

/-- The candidate groups are disjoint: summed over a duplicate-free
candidate list, the group sizes do not exceed the number of rows. -/
theorem sum_counts_le (attrIndex : Nat) (els : List Val) (rows : List (List Val))
    (hnd : els.Nodup) :
    (els.map (fun e => rows.countP (rowMatchesEle attrIndex e))).sum ≤ rows.length := by
  induction rows with
  | nil => simp
  | cons r rows ih =>
    have hsplit : (els.map (fun e => (r :: rows).countP (rowMatchesEle attrIndex e))).sum
        = (els.map (fun e => rows.countP (rowMatchesEle attrIndex e))).sum
          + (els.map (fun e => if rowMatchesEle attrIndex e r then 1 else 0)).sum := by
      simp only [List.countP_cons]
      exact sum_map_add els _ _
    rw [hsplit, sum_map_indicator]
    have hone : els.countP (fun e => rowMatchesEle attrIndex e r) ≤ 1 := by
      apply countP_le_one_of_nodup els _ hnd
      intro a ha b hb hpa hpb
      rw [rowMatchesEle_iff] at hpa hpb
      rw [hpa] at hpb
      exact Option.some_injective _ hpb
    simp only [List.length_cons]
    omega

/-- Counts, characterized: on rows long enough for the attribute index,
it returns (trues, falses, count) where count is the number of rows in
the candidate's group and trues the canonically-positive rows among
them. -/
theorem Counts_char (aData : List (List Val)) (ele : Val) (attrIndex : Nat)
    (hlen : ∀ row ∈ aData, attrIndex < row.length) :
    Counts aData ele attrIndex =
      some (aData.countP (fun row => rowMatchesEle attrIndex ele row && rowIsYes row),
            aData.countP (rowMatchesEle attrIndex ele) -
              aData.countP (fun row => rowMatchesEle attrIndex ele row && rowIsYes row),
            aData.countP (rowMatchesEle attrIndex ele)) := by
  have hgo : ∀ (rows : List (List Val)), (∀ row ∈ rows, attrIndex < row.length) →
      ∀ (acc : Nat × Nat),
      rows.foldlM (fun (acc : Nat × Nat) row => do
          let v ← row.get? attrIndex
          if pyEq v ele then
            let lab ← row.get? (row.length - 1)
            pure (if isYesLabel lab then (acc.1 + 1, acc.2 + 1) else (acc.1, acc.2 + 1))
          else pure acc) acc =
        some (acc.1 + rows.countP (fun row => rowMatchesEle attrIndex ele row && rowIsYes row),
              acc.2 + rows.countP (rowMatchesEle attrIndex ele)) := by
    intro rows
    induction rows with
    | nil => intro _ acc; simp
    | cons r rest ih =>
      intro hlen2 acc
      have hr : attrIndex < r.length := hlen2 r (by simp)
      have hposlab : r.length - 1 < r.length := by omega
      have hv : r.get? attrIndex = some r[attrIndex] := by
        rw [List.get?_eq_getElem?, List.getElem?_eq_getElem hr]
      have hlab : r.get? (r.length - 1) = some r[r.length - 1] := by
        rw [List.get?_eq_getElem?, List.getElem?_eq_getElem hposlab]
      have hmatch : rowMatchesEle attrIndex ele r = pyEq r[attrIndex] ele := by
        unfold rowMatchesEle
        rw [hv]
      have hyes : rowIsYes r = isYesLabel r[r.length - 1] := by
        unfold rowIsYes
        rw [hlab]
      have ihr := ih (fun x hx => hlen2 x (by simp [hx]))
      by_cases hm : pyEq r[attrIndex] ele = true
      · by_cases hy : isYesLabel r[r.length - 1] = true
        · simp only [List.foldlM_cons, hv, Option.some_bind, hlab, List.countP_cons, ihr]
          simp [hm, hy, hmatch, hyes]
          omega
        · simp only [List.foldlM_cons, hv, Option.some_bind, hlab, List.countP_cons, ihr]
          simp [hm, hy, hmatch, hyes]
          omega
      · simp only [List.foldlM_cons, hv, Option.some_bind, hlab, List.countP_cons, ihr]
        simp [hm, hmatch, hyes]
  unfold Counts
  rw [hgo aData hlen (0, 0)]
  simp

/-- The weighted impurity contributed by one candidate value of one
attribute: 0 for an empty group, otherwise
(count/total) * (1 - (trues/count)^2 - (falses/count)^2). -/
def giniTermOf (rows : List (List Val)) (attrIndex : Nat) (total : ℚ) (e : Val) : ℚ :=
  if rows.countP (rowMatchesEle attrIndex e) = 0 then 0
  else ((rows.countP (rowMatchesEle attrIndex e) : ℚ) / total) *
    (1 -
      ((rows.countP (fun row => rowMatchesEle attrIndex e row && rowIsYes row) : ℚ) /
        (rows.countP (rowMatchesEle attrIndex e) : ℚ)) ^ 2 -
      (((rows.countP (rowMatchesEle attrIndex e) -
            rows.countP (fun row => rowMatchesEle attrIndex e row && rowIsYes row) : Nat) : ℚ) /
        (rows.countP (rowMatchesEle attrIndex e) : ℚ)) ^ 2)

/-- GiniIndex's candidate fold computes the sum of the per-candidate
impurity terms. -/
theorem gini_fold (rows : List (List Val)) (attrIndex : Nat) (total : ℚ)
    (hlen : ∀ row ∈ rows, attrIndex < row.length) (els : List Val) (acc : ℚ) :
    els.foldlM (giniStep rows attrIndex total) acc =
      some (acc + (els.map (giniTermOf rows attrIndex total)).sum) := by
  induction els generalizing acc with
  | nil => simp
  | cons e els ih =>
    have hstep : giniStep rows attrIndex total acc e =
        some (acc + giniTermOf rows attrIndex total e) := by
      unfold giniStep giniTermOf
      rw [Counts_char rows e attrIndex hlen]
      by_cases hC : rows.countP (rowMatchesEle attrIndex e) = 0
      · simp [hC]
      · simp [hC]
    rw [List.foldlM_cons, hstep]
    show Option.bind (some (acc + giniTermOf rows attrIndex total e))
        (fun b => List.foldlM (giniStep rows attrIndex total) b els) = _
    rw [Option.some_bind, ih]
    simp [add_assoc]

/-- Per-candidate impurity term bounds: nonnegative, and at most the
group's share count/total of the subset. -/
theorem giniTermOf_bounds (rows : List (List Val)) (attrIndex : Nat) (total : ℚ)
    (htot : 0 < total) (e : Val) :
    0 ≤ giniTermOf rows attrIndex total e ∧
    giniTermOf rows attrIndex total e ≤
      ((rows.countP (rowMatchesEle attrIndex e) : ℚ)) / total := by
  by_cases hC : rows.countP (rowMatchesEle attrIndex e) = 0
  · unfold giniTermOf
    simp [hC, le_of_lt htot]
  · have hTC : rows.countP (fun row => rowMatchesEle attrIndex e row && rowIsYes row) ≤
        rows.countP (rowMatchesEle attrIndex e) := by
      apply List.countP_mono_left
      intro r _ h
      simp only [Bool.and_eq_true] at h
      exact h.1
    set C := rows.countP (rowMatchesEle attrIndex e) with hCdef
    set T := rows.countP (fun row => rowMatchesEle attrIndex e row && rowIsYes row) with hTdef
    have hCpos : 0 < C := Nat.pos_of_ne_zero hC
    have hCq : (0 : ℚ) < C := by exact_mod_cast hCpos
    have hTq : (0 : ℚ) ≤ T := Nat.cast_nonneg T
    have hTCq : (T : ℚ) ≤ C := by exact_mod_cast hTC
    have hsub : ((C - T : Nat) : ℚ) = (C : ℚ) - T := by
      push_cast [hTC]
      ring
    have hxy : (T : ℚ) / C + ((C : ℚ) - T) / C = 1 := by
      rw [div_add_div_same]
      field_simp
    have hx0 : 0 ≤ (T : ℚ) / C := div_nonneg hTq hCq.le
    have hy0 : 0 ≤ ((C : ℚ) - T) / C := div_nonneg (by linarith) hCq.le
    have hg0 : 0 ≤ 1 - ((T : ℚ) / C) ^ 2 - (((C : ℚ) - T) / C) ^ 2 := by
      nlinarith [mul_nonneg hx0 hy0]
    have hg1 : 1 - ((T : ℚ) / C) ^ 2 - (((C : ℚ) - T) / C) ^ 2 ≤ 1 := by
      nlinarith [sq_nonneg ((T : ℚ) / C), sq_nonneg (((C : ℚ) - T) / C)]
    have hw : 0 ≤ (C : ℚ) / total := div_nonneg hCq.le htot.le
    have hterm : giniTermOf rows attrIndex total e =
        ((C : ℚ) / total) * (1 - ((T : ℚ) / C) ^ 2 - (((C : ℚ) - T) / C) ^ 2) := by
      unfold giniTermOf
      rw [← hCdef, ← hTdef, if_neg hC, hsub]
    rw [hterm]
    constructor
    · exact mul_nonneg hw hg0
    · calc ((C : ℚ) / total) * (1 - ((T : ℚ) / C) ^ 2 - (((C : ℚ) - T) / C) ^ 2)
          ≤ ((C : ℚ) / total) * 1 := mul_le_mul_of_nonneg_left hg1 hw
        _ = (C : ℚ) / total := mul_one _

/-- A candidate group that is pure under the binary true/false counting
contributes 0 to the impurity sum. -/
theorem giniTermOf_pure (rows : List (List Val)) (attrIndex : Nat) (total : ℚ)
    (e : Val)
    (hpure : rows.countP (fun row => rowMatchesEle attrIndex e row && rowIsYes row) =
        rows.countP (rowMatchesEle attrIndex e) ∨
      rows.countP (fun row => rowMatchesEle attrIndex e row && rowIsYes row) = 0) :
    giniTermOf rows attrIndex total e = 0 := by
  by_cases hC : rows.countP (rowMatchesEle attrIndex e) = 0
  · unfold giniTermOf
    simp [hC]
  · have hTC : rows.countP (fun row => rowMatchesEle attrIndex e row && rowIsYes row) ≤
        rows.countP (rowMatchesEle attrIndex e) := by
      apply List.countP_mono_left
      intro r _ h
      simp only [Bool.and_eq_true] at h
      exact h.1
    set C := rows.countP (rowMatchesEle attrIndex e) with hCdef
    set T := rows.countP (fun row => rowMatchesEle attrIndex e row && rowIsYes row) with hTdef
    have hCq : (0 : ℚ) < C := by
      exact_mod_cast Nat.pos_of_ne_zero hC
    unfold giniTermOf
    rw [← hCdef, ← hTdef, if_neg hC]
    rcases hpure with h | h
    · rw [h]
      simp [Nat.sub_self, div_self hCq.ne']
    · rw [h]
      simp [div_self hCq.ne']

/-- Sum bounds for the impurity terms over a duplicate-free candidate
list: between 0 and 1. -/
theorem gini_sum_bounds (rows : List (List Val)) (attrIndex : Nat) (total : ℚ)
    (htot : total = (rows.length : ℚ)) (hrows : rows ≠ []) (els : List Val)
    (hnd : els.Nodup) :
    0 ≤ (els.map (giniTermOf rows attrIndex total)).sum ∧
    (els.map (giniTermOf rows attrIndex total)).sum ≤ 1 := by
  have hlpos : 0 < rows.length := List.length_pos.2 hrows
  have htotpos : 0 < total := by
    rw [htot]
    exact_mod_cast hlpos
  have hterms : ∀ (l : List Val),
      0 ≤ (l.map (giniTermOf rows attrIndex total)).sum ∧
      (l.map (giniTermOf rows attrIndex total)).sum ≤
        ((l.map (fun e => rows.countP (rowMatchesEle attrIndex e))).sum : ℚ) / total := by
    intro l
    induction l with
    | nil => simp
    | cons e l ih =>
      obtain ⟨h0, h1⟩ := giniTermOf_bounds rows attrIndex total htotpos e
      obtain ⟨ih0, ih1⟩ := ih
      constructor
      · simp only [List.map_cons, List.sum_cons]
        linarith
      · simp only [List.map_cons, List.sum_cons]
        have hcast : (((rows.countP (rowMatchesEle attrIndex e) +
            (l.map (fun x => rows.countP (rowMatchesEle attrIndex x))).sum : Nat)) : ℚ) =
            ((rows.countP (rowMatchesEle attrIndex e) : ℚ)) +
              (((l.map (fun x => rows.countP (rowMatchesEle attrIndex x))).sum : Nat) : ℚ) := by
          push_cast
          ring
        rw [hcast, add_div]
        linarith
  obtain ⟨h0, h1⟩ := hterms els
  refine ⟨h0, le_trans h1 ?_⟩
  rw [div_le_one htotpos, htot]
  exact_mod_cast sum_counts_le attrIndex els rows hnd

/-- Claim C7: for a non-empty subset and an attribute whose candidate
container is present and duplicate-free, GiniIndex returns (without
raising) a value in [0, 1], and returns exactly 0 when every
candidate-value group is pure under the binary true/false label
counting (each group's positives number all of it or none of it). -/
theorem C7_gini_bounds (rows : List (List Val)) (attrIndex : Nat)
    (pvals : List (Option PyContainer)) (cont : PyContainer)
    (hrows : rows ≠ [])
    (hentry : pvals.get? attrIndex = some (some cont))
    (hnodup : cont.toList.Nodup)
    (hlen : ∀ row ∈ rows, attrIndex < row.length) :
    ∃ g, GiniIndex rows attrIndex pvals = some g ∧ 0 ≤ g ∧ g ≤ 1 ∧
      ((∀ e ∈ cont.toList,
          rows.countP (fun row => rowMatchesEle attrIndex e row && rowIsYes row) =
            rows.countP (rowMatchesEle attrIndex e) ∨
          rows.countP (fun row => rowMatchesEle attrIndex e row && rowIsYes row) = 0) →
        g = 0) := by
  rw [List.get?_eq_getElem?] at hentry
  by_cases h1 : cont.len = 1
  · refine ⟨0, ?_, le_refl 0, by norm_num, fun _ => rfl⟩
    simp [GiniIndex, hentry, h1]
  · have hfold := gini_fold rows attrIndex ((rows.length : ℚ)) hlen cont.toList 0
    refine ⟨(cont.toList.map (giniTermOf rows attrIndex ((rows.length : ℚ)))).sum,
      ?_, ?_, ?_, ?_⟩
    · simp [GiniIndex, hentry, h1, hfold]
    · exact (gini_sum_bounds rows attrIndex _ rfl hrows cont.toList hnodup).1
    · exact (gini_sum_bounds rows attrIndex _ rfl hrows cont.toList hnodup).2
    · intro hpure
      apply List.sum_eq_zero
      intro x hx
      rw [List.mem_map] at hx
      obtain ⟨e, he, hxe⟩ := hx
      rw [← hxe]
      exact giniTermOf_pure rows attrIndex _ e (hpure e he)

/-- Witness for C7_gini_bounds: two rows, candidate list [1.0, 10.0] on
a numeric attribute, each group pure, so the Gini value is 0. -/
theorem C7_gini_bounds_witness :
    ∃ g, GiniIndex [[.num 1, .str "Yes"], [.num 10, .str "No"]] 0
        [some (.lst [.num 1, .num 10]), some (.set [.str "Yes", .str "No"])] = some g ∧
      0 ≤ g ∧ g ≤ 1 ∧
      ((∀ e ∈ (PyContainer.lst [Val.num 1, Val.num 10]).toList,
          ([[Val.num 1, Val.str "Yes"], [Val.num 10, Val.str "No"]] :
              List (List Val)).countP
              (fun row => rowMatchesEle 0 e row && rowIsYes row) =
            ([[Val.num 1, Val.str "Yes"], [Val.num 10, Val.str "No"]] :
              List (List Val)).countP (rowMatchesEle 0 e) ∨
          ([[Val.num 1, Val.str "Yes"], [Val.num 10, Val.str "No"]] :
              List (List Val)).countP
              (fun row => rowMatchesEle 0 e row && rowIsYes row) = 0) →
        g = 0) :=
  C7_gini_bounds [[.num 1, .str "Yes"], [.num 10, .str "No"]] 0
    [some (.lst [.num 1, .num 10]), some (.set [.str "Yes", .str "No"])]
    (.lst [.num 1, .num 10]) (by decide) (by decide) (by decide) (by decide)

/-- GiniIndex, characterized: 0 for a single candidate, otherwise the
sum of the per-candidate impurity terms over total = len(dataset). -/
theorem GiniIndex_char (rows : List (List Val)) (attrIndex : Nat)
    (pvals : List (Option PyContainer)) (cont : PyContainer)
    (hentry : pvals.get? attrIndex = some (some cont))
    (hlen : ∀ row ∈ rows, attrIndex < row.length) :
    GiniIndex rows attrIndex pvals =
      some (if cont.len = 1 then 0
            else (cont.toList.map (giniTermOf rows attrIndex ((rows.length : ℚ)))).sum) := by
  rw [List.get?_eq_getElem?] at hentry
  by_cases h1 : cont.len = 1
  · simp [GiniIndex, hentry, h1]
  · have hfold := gini_fold rows attrIndex ((rows.length : ℚ)) hlen cont.toList 0
    simp [GiniIndex, hentry, h1, hfold]

/-- The pure accumulator step of FindBestSplit's attribute loop. -/
def bestStep (conts : Nat → PyContainer) (g : Nat → ℚ) (best : ℚ × Int) (a : Nat) :
    ℚ × Int :=
  if (conts a).len = 1 then best
  else if g a < best.1 then (g a, (a : Int)) else best

/-- Under defined lookups and Gini values, FindBestSplit's monadic loop
computes the pure fold of bestStep. -/
theorem bestFold_reduce (rows : List (List Val)) (uniq : List (Option PyContainer))
    (conts : Nat → PyContainer) (g : Nat → ℚ) (L : List Nat)
    (hentry : ∀ a ∈ L, uniq.get? a = some (some (conts a)))
    (hg : ∀ a ∈ L, GiniIndex rows a uniq = some (g a))
    (best : ℚ × Int) :
    L.foldlM (fun (best : ℚ × Int) a => do
        let entry ← uniq.get? a
        let cont ← entry
        if cont.len = 1 then pure best
        else do
          let gv ← GiniIndex rows a uniq
          if gv < best.1 then pure (gv, (a : Int)) else pure best) best =
      some (L.foldl (bestStep conts g) best) := by
  induction L generalizing best with
  | nil => simp
  | cons a L ih =>
    have he := hentry a (by simp)
    rw [List.get?_eq_getElem?] at he
    have hga := hg a (by simp)
    have ihL := ih (fun x hx => hentry x (by simp [hx])) (fun x hx => hg x (by simp [hx]))
    have hstep1 : (do
        let entry ← uniq.get? a
        let cont ← entry
        if cont.len = 1 then pure best
        else do
          let gv ← GiniIndex rows a uniq
          if gv < best.1 then pure (gv, (a : Int)) else pure best) =
        some (bestStep conts g best a) := by
      by_cases h1 : (conts a).len = 1
      · simp [he, hga, bestStep, h1]
      · by_cases h2 : g a < best.1
        · simp [he, hga, bestStep, h1, h2]
        · simp [he, hga, bestStep, h1, h2]
    rw [List.foldlM_cons, hstep1]
    rw [List.foldl_cons]
    exact ihL _

/-- The fold of bestStep over range n returns the sentinel when no
attribute qualifies, and otherwise the minimum Gini value with the
lowest qualifying index attaining it (strict-less update keeps the
first minimum). -/
theorem bestFoldl_argmin (conts : Nat → PyContainer) (g : Nat → ℚ) (n : Nat)
    (hgle : ∀ a, a < n → (conts a).len ≠ 1 → g a < 2) :
    ((List.range n).foldl (bestStep conts g) ((2 : ℚ), (-1 : Int)) = ((2 : ℚ), (-1 : Int)) ∧
        ∀ a, a < n → (conts a).len = 1) ∨
    (∃ a0, a0 < n ∧ (conts a0).len ≠ 1 ∧
        (List.range n).foldl (bestStep conts g) ((2 : ℚ), (-1 : Int)) = (g a0, (a0 : Int)) ∧
        (∀ a, a < n → (conts a).len ≠ 1 → g a0 ≤ g a) ∧
        (∀ a, a < n → (conts a).len ≠ 1 → g a = g a0 → a0 ≤ a)) := by
  induction n with
  | zero => left; simp
  | succ n ih =>
    have hstep : (List.range (n + 1)).foldl (bestStep conts g) ((2 : ℚ), (-1 : Int)) =
        bestStep conts g ((List.range n).foldl (bestStep conts g) ((2 : ℚ), (-1 : Int))) n := by
      rw [List.range_succ, List.foldl_append, List.foldl_cons, List.foldl_nil]
    rcases ih (fun a ha hq => hgle a (Nat.lt_succ_of_lt ha) hq) with
      ⟨hres, hall⟩ | ⟨a0, ha0n, ha0q, hres, hmin, htie⟩
    · by_cases hq : (conts n).len = 1
      · left
        refine ⟨by rw [hstep, hres, bestStep, if_pos hq], ?_⟩
        intro a ha
        rcases Nat.lt_succ_iff_lt_or_eq.1 ha with h | h
        · exact hall a h
        · rw [h]; exact hq
      · right
        refine ⟨n, Nat.lt_succ_self n, hq, ?_, ?_, ?_⟩
        · rw [hstep, hres, bestStep, if_neg hq]
          simp [hgle n (Nat.lt_succ_self n) hq]
        · intro a ha haq
          rcases Nat.lt_succ_iff_lt_or_eq.1 ha with h | h
          · exact absurd (hall a h) haq
          · rw [h]
        · intro a ha haq _
          rcases Nat.lt_succ_iff_lt_or_eq.1 ha with h | h
          · exact absurd (hall a h) haq
          · omega
    · by_cases hq : (conts n).len = 1
      · right
        refine ⟨a0, Nat.lt_succ_of_lt ha0n, ha0q, ?_, ?_, ?_⟩
        · rw [hstep, hres, bestStep, if_pos hq]
        · intro a ha haq
          rcases Nat.lt_succ_iff_lt_or_eq.1 ha with h | h
          · exact hmin a h haq
          · rw [h] at haq; exact absurd hq haq
        · intro a ha haq heq
          rcases Nat.lt_succ_iff_lt_or_eq.1 ha with h | h
          · exact htie a h haq heq
          · rw [h] at haq; exact absurd hq haq
      · by_cases hcmp : g n < g a0
        · right
          refine ⟨n, Nat.lt_succ_self n, hq, ?_, ?_, ?_⟩
          · rw [hstep, hres, bestStep, if_neg hq]
            simp [hcmp]
          · intro a ha haq
            rcases Nat.lt_succ_iff_lt_or_eq.1 ha with h | h
            · exact le_of_lt (lt_of_lt_of_le hcmp (hmin a h haq))
            · rw [h]
          · intro a ha haq heq
            rcases Nat.lt_succ_iff_lt_or_eq.1 ha with h | h
            · exact absurd heq (by
                have hge := hmin a h haq
                intro hcontra
                rw [hcontra] at hge
                exact absurd (lt_of_lt_of_le hcmp hge) (lt_irrefl _))
            · omega
        · right
          refine ⟨a0, Nat.lt_succ_of_lt ha0n, ha0q, ?_, ?_, ?_⟩
          · rw [hstep, hres, bestStep, if_neg hq]
            simp [hcmp]
          · intro a ha haq
            rcases Nat.lt_succ_iff_lt_or_eq.1 ha with h | h
            · exact hmin a h haq
            · rw [h]; exact le_of_not_lt hcmp
          · intro a ha haq heq
            rcases Nat.lt_succ_iff_lt_or_eq.1 ha with h | h
            · exact htie a h haq heq
            · omega

/-- Claim C6: for a non-empty subset, FindBestSplit considers exactly
the non-label attributes with more than one local candidate (attributes
with exactly one are skipped; the data model gives every attribute at
least one), computes GiniIndex for each, and returns the minimum Gini
value with the lowest-indexed attribute attaining it — ties are kept on
the first-encountered attribute because the update uses strict
less-than against the initial sentinel (2.0, -1), and 2.0 exceeds every
Gini value.  When no attribute qualifies the sentinel pair itself is
returned. -/
theorem C6_find_best_split (rows : List (List Val)) (uniq : List (Option PyContainer))
    (row0 : List Val) (conts : Nat → PyContainer) (g : Nat → ℚ)
    (hrow0 : rows.get? 0 = some row0)
    (hrows : rows ≠ [])
    (hentry : ∀ a, a < row0.length - 1 → uniq.get? a = some (some (conts a)))
    (hnodup : ∀ a, a < row0.length - 1 → (conts a).toList.Nodup)
    (hlen1 : ∀ a, a < row0.length - 1 → 1 ≤ (conts a).len)
    (hrowlen : ∀ row ∈ rows, ∀ a, a < row0.length - 1 → a < row.length)
    (hg : ∀ a, a < row0.length - 1 → GiniIndex rows a uniq = some (g a)) :
    ((∀ a, a < row0.length - 1 → ¬1 < (conts a).len) →
        FindBestSplit rows uniq = some ((2 : ℚ), (-1 : Int))) ∧
    ((∃ a1, a1 < row0.length - 1 ∧ 1 < (conts a1).len) →
      ∃ a0, a0 < row0.length - 1 ∧ 1 < (conts a0).len ∧
        FindBestSplit rows uniq = some (g a0, (a0 : Int)) ∧
        (∀ a, a < row0.length - 1 → 1 < (conts a).len → g a0 ≤ g a) ∧
        (∀ a, a < row0.length - 1 → 1 < (conts a).len → g a = g a0 → a0 ≤ a)) := by
  have hq_iff : ∀ a, a < row0.length - 1 → ((conts a).len ≠ 1 ↔ 1 < (conts a).len) := by
    intro a ha
    have := hlen1 a ha
    omega
  have hgle : ∀ a, a < row0.length - 1 → (conts a).len ≠ 1 → g a < 2 := by
    intro a ha hq
    have hchar := GiniIndex_char rows a uniq (conts a) (hentry a ha)
      (fun row hrow => hrowlen row hrow a ha)
    rw [hg a ha] at hchar
    have hga : g a = (if (conts a).len = 1 then 0
        else ((conts a).toList.map (giniTermOf rows a ((rows.length : ℚ)))).sum) :=
      Option.some_injective _ hchar
    rw [hga, if_neg hq]
    have hub := (gini_sum_bounds rows a _ rfl hrows (conts a).toList (hnodup a ha)).2
    linarith
  have hreduce := bestFold_reduce rows uniq conts g (List.range (row0.length - 1))
    (fun a ha => hentry a (List.mem_range.1 ha))
    (fun a ha => hg a (List.mem_range.1 ha)) ((2 : ℚ), (-1 : Int))
  have hunfold : FindBestSplit rows uniq =
      some ((List.range (row0.length - 1)).foldl (bestStep conts g)
        ((2 : ℚ), (-1 : Int))) := by
    rw [← hreduce]
    unfold FindBestSplit
    rw [hrow0]
    rfl
  rcases bestFoldl_argmin conts g (row0.length - 1) hgle with
    ⟨hres, hall⟩ | ⟨a0, ha0n, ha0q, hres, hmin, htie⟩
  · constructor
    · intro _
      rw [hunfold, hres]
    · intro ⟨a1, ha1, ha1q⟩
      exact absurd (hall a1 ha1) ((hq_iff a1 ha1).2 ha1q)
  · constructor
    · intro hnone
      exact absurd ((hq_iff a0 ha0n).1 ha0q) (hnone a0 ha0n)
    · intro _
      refine ⟨a0, ha0n, (hq_iff a0 ha0n).1 ha0q, ?_, ?_, ?_⟩
      · rw [hunfold, hres]
      · intro a ha haq
        exact hmin a ha ((hq_iff a ha).2 haq)
      · intro a ha haq heq
        exact htie a ha ((hq_iff a ha).2 haq) heq

/-- Witness for C6_find_best_split on a two-row, two-attribute subset:
attribute 0 has two local candidates (qualifies, Gini 0), attribute 1
has one (skipped), so the best split is attribute 0 with Gini 0. -/
theorem C6_find_best_split_witness :
    ((∀ a, a < ([Val.num 1, Val.num 5, Val.str "Yes"] : List Val).length - 1 →
        ¬1 < ((fun a => if a = 0 then PyContainer.lst [Val.num 1, Val.num 10]
            else PyContainer.lst [Val.num 5]) a).len) →
      FindBestSplit
        [[Val.num 1, Val.num 5, Val.str "Yes"], [Val.num 10, Val.num 5, Val.str "No"]]
        [some (.lst [.num 1, .num 10]), some (.lst [.num 5]),
          some (.set [.str "Yes", .str "No"])] = some ((2 : ℚ), (-1 : Int))) ∧
    ((∃ a1, a1 < ([Val.num 1, Val.num 5, Val.str "Yes"] : List Val).length - 1 ∧
        1 < ((fun a => if a = 0 then PyContainer.lst [Val.num 1, Val.num 10]
            else PyContainer.lst [Val.num 5]) a1).len) →
      ∃ a0, a0 < ([Val.num 1, Val.num 5, Val.str "Yes"] : List Val).length - 1 ∧
        1 < ((fun a => if a = 0 then PyContainer.lst [Val.num 1, Val.num 10]
            else PyContainer.lst [Val.num 5]) a0).len ∧
        FindBestSplit
          [[Val.num 1, Val.num 5, Val.str "Yes"], [Val.num 10, Val.num 5, Val.str "No"]]
          [some (.lst [.num 1, .num 10]), some (.lst [.num 5]),
            some (.set [.str "Yes", .str "No"])] =
          some ((fun _ => (0 : ℚ)) a0, (a0 : Int)) ∧
        (∀ a, a < ([Val.num 1, Val.num 5, Val.str "Yes"] : List Val).length - 1 →
          1 < ((fun a => if a = 0 then PyContainer.lst [Val.num 1, Val.num 10]
              else PyContainer.lst [Val.num 5]) a).len →
          (fun _ => (0 : ℚ)) a0 ≤ (fun _ => (0 : ℚ)) a) ∧
        (∀ a, a < ([Val.num 1, Val.num 5, Val.str "Yes"] : List Val).length - 1 →
          1 < ((fun a => if a = 0 then PyContainer.lst [Val.num 1, Val.num 10]
              else PyContainer.lst [Val.num 5]) a).len →
          (fun _ => (0 : ℚ)) a = (fun _ => (0 : ℚ)) a0 → a0 ≤ a)) :=
  C6_find_best_split
    [[Val.num 1, Val.num 5, Val.str "Yes"], [Val.num 10, Val.num 5, Val.str "No"]]
    [some (.lst [.num 1, .num 10]), some (.lst [.num 5]),
      some (.set [.str "Yes", .str "No"])]
    [Val.num 1, Val.num 5, Val.str "Yes"]
    (fun a => if a = 0 then PyContainer.lst [Val.num 1, Val.num 10]
      else PyContainer.lst [Val.num 5])
    (fun _ => (0 : ℚ))
    (by decide) (by decide) (by decide) (by decide) (by decide) (by decide)
    (by
      intro a ha
      have h2 : a = 0 ∨ a = 1 := by
        simp only [List.length_cons, List.length_nil] at ha
        omega
      rcases h2 with h | h <;> subst h
      · rw [GiniIndex_char
          [[Val.num 1, Val.num 5, Val.str "Yes"], [Val.num 10, Val.num 5, Val.str "No"]] 0
          [some (.lst [.num 1, .num 10]), some (.lst [.num 5]),
            some (.set [.str "Yes", .str "No"])]
          (PyContainer.lst [Val.num 1, Val.num 10]) (by decide) (by decide)]
        rw [if_neg (by decide)]
        have h1 : giniTermOf
            [[Val.num 1, Val.num 5, Val.str "Yes"], [Val.num 10, Val.num 5, Val.str "No"]] 0
            ((([[Val.num 1, Val.num 5, Val.str "Yes"],
                [Val.num 10, Val.num 5, Val.str "No"]] : List (List Val)).length : ℚ))
            (Val.num 1) = 0 :=
          giniTermOf_pure _ _ _ _ (by decide)
        have h10 : giniTermOf
            [[Val.num 1, Val.num 5, Val.str "Yes"], [Val.num 10, Val.num 5, Val.str "No"]] 0
            ((([[Val.num 1, Val.num 5, Val.str "Yes"],
                [Val.num 10, Val.num 5, Val.str "No"]] : List (List Val)).length : ℚ))
            (Val.num 10) = 0 :=
          giniTermOf_pure _ _ _ _ (by decide)
        simp only [PyContainer.toList, List.map_cons, List.map_nil, h1, h10,
          List.sum_cons, List.sum_nil, add_zero]
      · rw [GiniIndex_char
          [[Val.num 1, Val.num 5, Val.str "Yes"], [Val.num 10, Val.num 5, Val.str "No"]] 1
          [some (.lst [.num 1, .num 10]), some (.lst [.num 5]),
            some (.set [.str "Yes", .str "No"])]
          (PyContainer.lst [Val.num 5]) (by decide) (by decide)]
        rw [if_pos (by decide)])

/-- One (columnIndex, word) update of GetPossibleValues' scan
(DecisionTree.py lines 273-280): numeric words are appended to the
column's list, categorical words added to the column's set; applying
the wrong method to the other container kind raises AttributeError
(mixed-typed column) and possibleValues[j] out of range raises
IndexError — both none. -/
def globalScanStep (pv : List (Option PyContainer)) (iw : Nat × Val) :
    Option (List (Option PyContainer)) := do
  let cur ← pv.get? iw.1
  if IsFloat iw.2 then
    match cur with
    | none => pure (pv.set iw.1 (some (.lst [iw.2])))
    | some (.lst l) => pure (pv.set iw.1 (some (.lst (l ++ [iw.2]))))
    | some (.set _) => none
  else
    match cur with
    | none => pure (pv.set iw.1 (some (.set (setAdd [] iw.2))))
    | some (.set s) => pure (pv.set iw.1 (some (.set (setAdd s iw.2))))
    | some (.lst _) => none

/-- The per-column container built from the values vs observed so far:
still None when nothing was observed, a list for numeric columns, an
insertion-ordered set for categorical columns. -/
def mkEntry (t : Bool) (vs : List Val) : Option PyContainer :=
  if vs = [] then none
  else if t then some (.lst vs) else some (.set (vs.foldl setAdd []))

/-- Scan-state invariant: possibleValues has one entry per attribute
and column j holds the container of the values acc j observed so far. -/
def pvState (attrCount : Nat) (colTypes : Nat → Bool) (acc : Nat → List Val)
    (pv : List (Option PyContainer)) : Prop :=
  pv.length = attrCount ∧
  ∀ j, j < attrCount → pv.get? j = some (mkEntry (colTypes j) (acc j))

theorem pvState_set (attrCount : Nat) (colTypes : Nat → Bool) (acc : Nat → List Val)
    (pv : List (Option PyContainer)) (j : Nat) (vs : List Val)
    (hst : pvState attrCount colTypes acc pv) (hj : j < attrCount) :
    pvState attrCount colTypes (fun j2 => if j2 = j then vs else acc j2)
      (pv.set j (mkEntry (colTypes j) vs)) := by
  obtain ⟨hlen, hcols⟩ := hst
  refine ⟨by simp [hlen], ?_⟩
  intro j2 hj2
  by_cases hj2j : j2 = j
  · subst hj2j
    rw [List.get?_set_eq_of_lt _ (by omega)]
    simp
  · rw [List.get?_set_ne _ _ (fun h => hj2j h.symm)]
    have h := hcols j2 hj2
    rw [List.get?_eq_getElem?] at h
    simp [hj2j, h]

theorem globalScanStep_ok (attrCount : Nat) (colTypes : Nat → Bool)
    (acc : Nat → List Val) (pv : List (Option PyContainer)) (j : Nat) (w : Val)
    (hst : pvState attrCount colTypes acc pv) (hj : j < attrCount)
    (hw : IsFloat w = colTypes j) :
    globalScanStep pv (j, w) =
      some (pv.set j (mkEntry (colTypes j) (acc j ++ [w]))) := by
  obtain ⟨hlen, hcols⟩ := hst
  have hent := hcols j hj
  rw [List.get?_eq_getElem?] at hent
  have hnonempty : acc j ++ [w] ≠ [] := by simp
  by_cases ht : colTypes j = true
  · rw [ht] at hw
    by_cases hacc : acc j = []
    · have hent2 : pv[j]? = some none := by rw [hent]; simp [mkEntry, hacc]
      unfold globalScanStep
      simp [hent2, hw, mkEntry, hacc, hnonempty, ht]
    · have hent2 : pv[j]? = some (some (.lst (acc j))) := by
        rw [hent]; simp [mkEntry, hacc, ht]
      unfold globalScanStep
      simp [hent2, hw, mkEntry, hacc, hnonempty, ht]
  · have ht2 : colTypes j = false := by
      cases h : colTypes j
      · rfl
      · exact absurd h ht
    rw [ht2] at hw
    by_cases hacc : acc j = []
    · have hent2 : pv[j]? = some none := by rw [hent]; simp [mkEntry, hacc]
      unfold globalScanStep
      simp [hent2, hw, mkEntry, hacc, hnonempty, ht2]
    · have hent2 : pv[j]? = some (some (.set ((acc j).foldl setAdd []))) := by
        rw [hent]; simp [mkEntry, hacc, ht2]
      unfold globalScanStep
      simp [hent2, hw, mkEntry, hacc, hnonempty, ht2, List.foldl_append]

theorem pvState_congr (attrCount : Nat) (colTypes : Nat → Bool)
    (acc1 acc2 : Nat → List Val) (pv : List (Option PyContainer))
    (hacc : ∀ j, j < attrCount → acc1 j = acc2 j)
    (hst : pvState attrCount colTypes acc1 pv) :
    pvState attrCount colTypes acc2 pv := by
  obtain ⟨hlen, hcols⟩ := hst
  exact ⟨hlen, fun j hj => by rw [← hacc j hj]; exact hcols j hj⟩

/-- Scanning one row of GetPossibleValues appends, to each column the
row reaches, the row's value at that column. -/
theorem globalScanRow (attrCount : Nat) (colTypes : Nat → Bool) :
    ∀ (s : List Val) (k : Nat) (acc : Nat → List Val) (pv : List (Option PyContainer)),
    pvState attrCount colTypes acc pv →
    (∀ idx v, s.get? idx = some v → IsFloat v = colTypes (k + idx)) →
    k + s.length ≤ attrCount →
    ∃ pv2, (s.enumFrom k).foldlM globalScanStep pv = some pv2 ∧
      pvState attrCount colTypes
        (fun j => if k ≤ j ∧ j < k + s.length then acc j ++ (s.get? (j - k)).toList
          else acc j) pv2 := by
  intro s
  induction s with
  | nil =>
    intro k acc pv hst _ _
    refine ⟨pv, by simp [List.enumFrom], ?_⟩
    apply pvState_congr attrCount colTypes acc _ pv _ hst
    intro j _
    have hfalse : ¬(k ≤ j ∧ j < k + ([] : List Val).length) := by simp
    simp [hfalse]
  | cons w s ih =>
    intro k acc pv hst hty hklen
    have hkattr : k < attrCount := by
      simp only [List.length_cons] at hklen
      omega
    have hw : IsFloat w = colTypes k := by
      have := hty 0 w (by simp)
      simpa using this
    have hstep := globalScanStep_ok attrCount colTypes acc pv k w hst hkattr hw
    have hst2 := pvState_set attrCount colTypes acc pv k (acc k ++ [w]) hst hkattr
    obtain ⟨pv2, hfold, hst3⟩ := ih (k + 1) (fun j2 => if j2 = k then acc k ++ [w] else acc j2)
      (pv.set k (mkEntry (colTypes k) (acc k ++ [w]))) hst2
      (fun idx v hv => by
        have := hty (idx + 1) v (by simpa using hv)
        rw [show k + 1 + idx = k + (idx + 1) by omega]
        exact this)
      (by simp only [List.length_cons] at hklen; omega)
    refine ⟨pv2, ?_, ?_⟩
    · rw [show (w :: s).enumFrom k = (k, w) :: s.enumFrom (k + 1) from rfl]
      rw [List.foldlM_cons, hstep]
      exact hfold
    · apply pvState_congr attrCount colTypes _ _ pv2 _ hst3
      intro j _
      by_cases hjk : j = k
      · subst hjk
        have hc1 : ¬(j + 1 ≤ j ∧ j < j + 1 + s.length) := by omega
        have hc2 : j ≤ j ∧ j < j + (w :: s).length := by simp
        simp [hc1, hc2]
      · by_cases hrange : k + 1 ≤ j ∧ j < k + 1 + s.length
        · have hc2 : k ≤ j ∧ j < k + (w :: s).length := by
            simp only [List.length_cons]
            omega
          have hidx : j - k = (j - (k + 1)) + 1 := by omega
          simp only [hrange, if_true, hjk, if_false, hc2, hidx]
          rfl
        · simp only [List.length_cons]
          rw [if_neg (show ¬(k + 1 ≤ j ∧ j < k + 1 + s.length) by omega),
            if_neg (show ¬(k ≤ j ∧ j < k + (s.length + 1)) by omega),
            if_neg hjk]

/-- Scanning the training rows of GetPossibleValues accumulates, per
column, the observed values in row order. -/
theorem globalScan_rows (attrCount : Nat) (colTypes : Nat → Bool) :
    ∀ (data : List (List Val)) (acc : Nat → List Val) (pv : List (Option PyContainer)),
    pvState attrCount colTypes acc pv →
    (∀ row ∈ data, ∀ j v, row.get? j = some v → IsFloat v = colTypes j) →
    (∀ row ∈ data, row.length ≤ attrCount) →
    ∃ pv2, data.foldlM (fun pv row => row.enum.foldlM globalScanStep pv) pv = some pv2 ∧
      pvState attrCount colTypes
        (fun j => acc j ++ data.filterMap (fun row => row.get? j)) pv2 := by
  intro data
  induction data with
  | nil =>
    intro acc pv hst _ _
    refine ⟨pv, by simp, ?_⟩
    apply pvState_congr attrCount colTypes acc _ pv _ hst
    intro j _
    simp
  | cons r rest ih =>
    intro acc pv hst hty hlen
    obtain ⟨pvr, hfoldr, hstr⟩ := globalScanRow attrCount colTypes r 0 acc pv hst
      (fun idx v hv => by simpa using hty r (by simp) idx v hv)
      (by simpa using hlen r (by simp))
    have hstr2 : pvState attrCount colTypes
        (fun j => acc j ++ (r.get? j).toList) pvr := by
      apply pvState_congr attrCount colTypes _ _ pvr _ hstr
      intro j _
      by_cases hj : j < r.length
      · simp [hj, List.get?_eq_getElem?]
      · have hnone : r.get? j = none := by
          rw [List.get?_eq_getElem?]
          exact List.getElem?_eq_none (by omega)
        rw [List.get?_eq_getElem?] at hnone
        simp [hj, hnone, List.get?_eq_getElem?]
    obtain ⟨pv2, hfold2, hst2⟩ := ih (fun j => acc j ++ (r.get? j).toList) pvr hstr2
      (fun row hrow => hty row (by simp [hrow]))
      (fun row hrow => hlen row (by simp [hrow]))
    refine ⟨pv2, ?_, ?_⟩
    · rw [List.foldlM_cons]
      rw [show r.enum = r.enumFrom 0 from rfl, hfoldr]
      exact hfold2
    · apply pvState_congr attrCount colTypes _ _ pv2 _ hst2
      intro j _
      rw [List.filterMap_cons]
      cases hr : r.get? j
      · simp [hr]
      · simp [hr]

theorem valLeb_total (a b : Val) : valLeb a b = true ∨ valLeb b a = true := by
  cases a <;> cases b <;> simp [valLeb] <;> apply le_total

theorem valLeb_trans (a b c : Val) (hab : valLeb a b = true) (hbc : valLeb b c = true) :
    valLeb a c = true := by
  cases a <;> cases b <;> cases c <;> simp [valLeb] at * <;> exact le_trans hab hbc

theorem mem_insertSorted (v w : Val) (l : List Val) :
    w ∈ insertSorted v l ↔ w = v ∨ w ∈ l := by
  induction l with
  | nil => simp [insertSorted]
  | cons x rest ih =>
    by_cases h : valLeb v x = true
    · simp [insertSorted, h]
    · simp [insertSorted, h, ih]
      tauto

theorem mem_sortVals (l : List Val) (w : Val) : w ∈ sortVals l ↔ w ∈ l := by
  induction l with
  | nil => simp [sortVals]
  | cons x rest ih => simp [sortVals, mem_insertSorted, ih]

theorem nodup_insertSorted (v : Val) (l : List Val) (hv : v ∉ l) (h : l.Nodup) :
    (insertSorted v l).Nodup := by
  induction l with
  | nil => simp [insertSorted]
  | cons x rest ih =>
    rcases List.nodup_cons.1 h with ⟨hx, hrest⟩
    by_cases hle : valLeb v x = true
    · rw [insertSorted, if_pos hle]
      exact List.nodup_cons.2 ⟨by simpa using hv, h⟩
    · rw [insertSorted, if_neg hle]
      refine List.nodup_cons.2 ⟨?_, ih (fun hmem => hv (by simp [hmem])) hrest⟩
      rw [mem_insertSorted]
      rintro (hxy | hxr)
      · exact hv (by simp [hxy.symm])
      · exact hx hxr

theorem nodup_sortVals (l : List Val) (h : l.Nodup) : (sortVals l).Nodup := by
  induction l with
  | nil => simp [sortVals]
  | cons x rest ih =>
    rcases List.nodup_cons.1 h with ⟨hx, hrest⟩
    rw [sortVals]
    exact nodup_insertSorted x (sortVals rest) (fun hmem => hx ((mem_sortVals rest x).1 hmem))
      (ih hrest)

theorem sorted_insertSorted (v : Val) (l : List Val)
    (h : l.Pairwise (fun a b => valLeb a b = true)) :
    (insertSorted v l).Pairwise (fun a b => valLeb a b = true) := by
  induction l with
  | nil => simp [insertSorted]
  | cons x rest ih =>
    rcases List.pairwise_cons.1 h with ⟨hx, hrest⟩
    by_cases hle : valLeb v x = true
    · rw [insertSorted, if_pos hle]
      refine List.pairwise_cons.2 ⟨?_, h⟩
      intro b hb
      rcases List.mem_cons.1 hb with hbx | hbr
      · rw [hbx]; exact hle
      · exact valLeb_trans v x b hle (hx b hbr)
    · rw [insertSorted, if_neg hle]
      refine List.pairwise_cons.2 ⟨?_, ih hrest⟩
      intro b hb
      rcases (mem_insertSorted v b rest).1 hb with hbv | hbr
      · rw [hbv]
        rcases valLeb_total v x with hvx | hxv
        · exact absurd hvx hle
        · exact hxv
      · exact hx b hbr

theorem sorted_sortVals (l : List Val) :
    (sortVals l).Pairwise (fun a b => valLeb a b = true) := by
  induction l with
  | nil => simp [sortVals]
  | cons x rest ih =>
    rw [sortVals]
    exact sorted_insertSorted x (sortVals rest) ih

theorem mem_dedupSort (l : List Val) (w : Val) : w ∈ dedupSort l ↔ w ∈ l := by
  rw [dedupSort, mem_sortVals, List.mem_dedup]

theorem nodup_dedupSort (l : List Val) : (dedupSort l).Nodup :=
  nodup_sortVals _ l.nodup_dedup

theorem sorted_dedupSort (l : List Val) :
    (dedupSort l).Pairwise (fun a b => valLeb a b = true) :=
  sorted_sortVals _

/-- The tercile index int(numPosVals / 3 * k) - 1 of GetPossibleValues
(DecisionTree.py lines 298-300); Python float arithmetic is modelled
exactly and int() truncates (the operand is nonnegative here, so
truncation is the floor). -/
def terceIdx (n k : Nat) : Int := ⌊(n : ℚ) / 3 * k⌋ - 1

/-- The final numeric-column pass of GetPossibleValues (DecisionTree.py
lines 285-302): deduplicate and sort each list container; when at least
3 distinct values remain, keep exactly the three tercile
representatives.  Set containers and None entries are unchanged. -/
def finalizeGlobal : Option PyContainer → Option PyContainer
  | some (.lst l) =>
    let d := dedupSort l
    if 3 ≤ d.length then
      some (.lst [d.getD (terceIdx d.length 1).toNat (.num 0),
                  d.getD (terceIdx d.length 2).toNat (.num 0),
                  d.getD (terceIdx d.length 3).toNat (.num 0)])
    else some (.lst d)
  | c => c

/-- Embedding of DecisionTree.GetPossibleValues (DecisionTree.py lines
271-304): scan every row collecting per-column values (lists for
numeric columns, sets for categorical ones), then apply the
numeric-column finalization. -/
def GetPossibleValues (attrCount : Nat) (aTrainingData : List (List Val)) :
    Option (List (Option PyContainer)) := do
  let pv ← aTrainingData.foldlM (fun pv row => row.enum.foldlM globalScanStep pv)
    (List.replicate attrCount none)
  pure (pv.map finalizeGlobal)

/-- The exact-arithmetic tercile indices agree with the natural-number
expressions floor(n/3)-1, floor(2n/3)-1 and n-1. -/
theorem terceIdx_eq (n : Nat) (h3 : 3 ≤ n) :
    (terceIdx n 1).toNat = n / 3 - 1 ∧
    (terceIdx n 2).toNat = 2 * n / 3 - 1 ∧
    (terceIdx n 3).toNat = n - 1 := by
  have hcast : ∀ k : Nat, ((n : ℚ) / 3 * k) = (((n * k : Nat) : Int) : ℚ) / ((3 : Nat) : ℚ) := by
    intro k
    push_cast
    ring
  have hfloor : ∀ k : Nat, terceIdx n k = ((n * k : Nat) : Int) / 3 - 1 := by
    intro k
    rw [terceIdx, hcast k, Rat.floor_intCast_div_natCast]
    norm_num
  refine ⟨?_, ?_, ?_⟩ <;> rw [hfloor] <;> omega

theorem pvState_replicate (attrCount : Nat) (colTypes : Nat → Bool) :
    pvState attrCount colTypes (fun _ => []) (List.replicate attrCount none) := by
  refine ⟨by simp, ?_⟩
  intro j hj
  rw [List.get?_eq_getElem?]
  simp [List.getElem?_replicate, hj, mkEntry]

/-- Claim C5: for a numeric attribute column with at least one observed
value, GetPossibleValues deduplicates and sorts the observed column
values ascending; with fewer than 3 distinct values the candidate list
is that sorted list unchanged, and with n >= 3 distinct values the
candidates are exactly the values at 0-indexed positions floor(n/3)-1,
floor(2n/3)-1 and n-1 of the sorted distinct list. -/
theorem C5_global_candidates (attrCount : Nat) (colTypes : Nat → Bool)
    (data : List (List Val)) (i : Nat)
    (hty : ∀ row ∈ data, ∀ j v, row.get? j = some v → IsFloat v = colTypes j)
    (hlen : ∀ row ∈ data, row.length ≤ attrCount)
    (hi : i < attrCount) (hnum : colTypes i = true)
    (hobs : data.filterMap (fun row => row.get? i) ≠ []) :
    ∃ pv, GetPossibleValues attrCount data = some pv ∧
      pv.get? i = some (some (.lst
        (if 3 ≤ (dedupSort (data.filterMap (fun row => row.get? i))).length then
          [(dedupSort (data.filterMap (fun row => row.get? i))).getD
              ((dedupSort (data.filterMap (fun row => row.get? i))).length / 3 - 1) (.num 0),
           (dedupSort (data.filterMap (fun row => row.get? i))).getD
              (2 * (dedupSort (data.filterMap (fun row => row.get? i))).length / 3 - 1) (.num 0),
           (dedupSort (data.filterMap (fun row => row.get? i))).getD
              ((dedupSort (data.filterMap (fun row => row.get? i))).length - 1) (.num 0)]
        else dedupSort (data.filterMap (fun row => row.get? i))))) ∧
      (dedupSort (data.filterMap (fun row => row.get? i))).Nodup ∧
      (dedupSort (data.filterMap (fun row => row.get? i))).Pairwise
        (fun a b => valLeb a b = true) ∧
      (∀ v, v ∈ dedupSort (data.filterMap (fun row => row.get? i)) ↔
        v ∈ data.filterMap (fun row => row.get? i)) := by
  obtain ⟨pv0, hfold, hst⟩ := globalScan_rows attrCount colTypes data (fun _ => [])
    (List.replicate attrCount none) (pvState_replicate attrCount colTypes) hty hlen
  obtain ⟨hlen0, hcols0⟩ := hst
  have hent := hcols0 i hi
  refine ⟨pv0.map finalizeGlobal, ?_, ?_, nodup_dedupSort _, sorted_dedupSort _,
    fun v => mem_dedupSort _ v⟩
  · rw [GetPossibleValues, hfold]
    rfl
  · rw [List.get?_map, hent]
    have hmk : mkEntry (colTypes i) (([] : List Val) ++
        data.filterMap (fun row => row.get? i)) =
        some (.lst (data.filterMap (fun row => row.get? i))) := by
      rw [mkEntry, List.nil_append, if_neg hobs, hnum, if_pos rfl]
    rw [hmk]
    simp only [Option.map_some']
    rw [finalizeGlobal]
    by_cases h3 : 3 ≤ (dedupSort (data.filterMap (fun row => row.get? i))).length
    · obtain ⟨h1, h2, hlast⟩ := terceIdx_eq
        (dedupSort (data.filterMap (fun row => row.get? i))).length h3
      simp only [h3, if_true, h1, h2, hlast]
    · simp only [h3, if_false]

/-- Witness for C5_global_candidates: a single numeric column with
observed values 4.0, 1.0, 3.0, 2.0 — four distinct values, so the
candidates are the tercile picks from the sorted distinct list. -/
theorem C5_global_candidates_witness :
    ∃ pv, GetPossibleValues 1 [[Val.num 4], [Val.num 1], [Val.num 3], [Val.num 2]] = some pv ∧
      pv.get? 0 = some (some (.lst
        (if 3 ≤ (dedupSort (([[Val.num 4], [Val.num 1], [Val.num 3], [Val.num 2]] :
              List (List Val)).filterMap (fun row => row.get? 0))).length then
          [(dedupSort (([[Val.num 4], [Val.num 1], [Val.num 3], [Val.num 2]] :
              List (List Val)).filterMap (fun row => row.get? 0))).getD
              ((dedupSort (([[Val.num 4], [Val.num 1], [Val.num 3], [Val.num 2]] :
                List (List Val)).filterMap (fun row => row.get? 0))).length / 3 - 1) (.num 0),
           (dedupSort (([[Val.num 4], [Val.num 1], [Val.num 3], [Val.num 2]] :
              List (List Val)).filterMap (fun row => row.get? 0))).getD
              (2 * (dedupSort (([[Val.num 4], [Val.num 1], [Val.num 3], [Val.num 2]] :
                List (List Val)).filterMap (fun row => row.get? 0))).length / 3 - 1) (.num 0),
           (dedupSort (([[Val.num 4], [Val.num 1], [Val.num 3], [Val.num 2]] :
              List (List Val)).filterMap (fun row => row.get? 0))).getD
              ((dedupSort (([[Val.num 4], [Val.num 1], [Val.num 3], [Val.num 2]] :
                List (List Val)).filterMap (fun row => row.get? 0))).length - 1) (.num 0)]
        else dedupSort (([[Val.num 4], [Val.num 1], [Val.num 3], [Val.num 2]] :
            List (List Val)).filterMap (fun row => row.get? 0))))) ∧
      (dedupSort (([[Val.num 4], [Val.num 1], [Val.num 3], [Val.num 2]] :
          List (List Val)).filterMap (fun row => row.get? 0))).Nodup ∧
      (dedupSort (([[Val.num 4], [Val.num 1], [Val.num 3], [Val.num 2]] :
          List (List Val)).filterMap (fun row => row.get? 0))).Pairwise
        (fun a b => valLeb a b = true) ∧
      (∀ v, v ∈ dedupSort (([[Val.num 4], [Val.num 1], [Val.num 3], [Val.num 2]] :
          List (List Val)).filterMap (fun row => row.get? 0)) ↔
        v ∈ ([[Val.num 4], [Val.num 1], [Val.num 3], [Val.num 2]] :
          List (List Val)).filterMap (fun row => row.get? 0)) :=
  C5_global_candidates 1 (fun _ => true)
    [[Val.num 4], [Val.num 1], [Val.num 3], [Val.num 2]] 0
    (by
      intro row hrow j v hv
      fin_cases hrow <;>
        · rcases j with _ | n
          · rw [List.get?] at hv
            injection hv with h
            rw [← h]
            rfl
          · simp at hv)
    (by decide) (by decide) (by decide) (by decide)

/-- The per-column container of the child scan: still None when the
column was never reached, otherwise a list/set of the recorded global
candidate values (GetChildPossibleValues creates the container as soon
as a row reaches the column, even when no question matches). -/
def mkEntryC (t : Bool) : Option (List Val) → Option PyContainer
  | none => none
  | some vs => if t then some (.lst vs) else some (.set (vs.foldl setAdd []))

/-- Child-scan state invariant: one entry per attribute, column j holds
the container described by st j. -/
def pvStateC (attrCount : Nat) (colTypes : Nat → Bool) (st : Nat → Option (List Val))
    (pv : List (Option PyContainer)) : Prop :=
  pv.length = attrCount ∧
  ∀ j, j < attrCount → pv.get? j = some (mkEntryC (colTypes j) (st j))

/-- The global candidate value recorded for this row and question list:
the Value of the first matching question, none when no question matches
(or when a Match raises, which the scan hypotheses exclude). -/
def bucketVal (qs : List Question) (row : List Val) : Option Val :=
  match firstMatching qs row with
  | some (some q) => some q.Value
  | _ => none

theorem firstMatching_isSome (qs : List Question) (row : List Val)
    (hdef : ∀ q ∈ qs, (q.Match row).isSome) :
    firstMatching qs row ≠ none := by
  induction qs with
  | nil => simp [firstMatching]
  | cons q rest ih =>
    have hq : (q.Match row).isSome := hdef q (by simp)
    match hm : q.Match row with
    | none => rw [hm] at hq; simp at hq
    | some true => simp [firstMatching, hm]
    | some false =>
      have := ih (fun p hp => hdef p (by simp [hp]))
      simp [firstMatching, hm]
      intro hc
      exact this hc

theorem pvStateC_set (attrCount : Nat) (colTypes : Nat → Bool)
    (st : Nat → Option (List Val)) (pv : List (Option PyContainer)) (j : Nat)
    (vs : Option (List Val))
    (hst : pvStateC attrCount colTypes st pv) (hj : j < attrCount) :
    pvStateC attrCount colTypes (fun j2 => if j2 = j then vs else st j2)
      (pv.set j (mkEntryC (colTypes j) vs)) := by
  obtain ⟨hlen, hcols⟩ := hst
  refine ⟨by simp [hlen], ?_⟩
  intro j2 hj2
  by_cases hj2j : j2 = j
  · subst hj2j
    rw [List.get?_set_eq_of_lt _ (by omega)]
    simp
  · rw [List.get?_set_ne _ _ (fun h => hj2j h.symm)]
    have h := hcols j2 hj2
    rw [List.get?_eq_getElem?] at h
    simp [hj2j, h]

/-- One (columnIndex, word) update of the child scan appends the row's
recorded global candidate (if any) to the column's container, creating
the container if needed. -/
theorem childScanStep_ok (attrCount : Nat) (colTypes : Nat → Bool)
    (gqs : List (List Question)) (qs : List Question)
    (st : Nat → Option (List Val)) (pv : List (Option PyContainer))
    (row : List Val) (j : Nat) (w : Val)
    (hst : pvStateC attrCount colTypes st pv) (hj : j < attrCount)
    (hw : IsFloat w = colTypes j)
    (hq : gqs.get? j = some qs)
    (hdef : ∀ q ∈ qs, (q.Match row).isSome) :
    childScanStep gqs row pv (j, w) =
      some (pv.set j (mkEntryC (colTypes j)
        (some ((st j).getD [] ++ (bucketVal qs row).toList)))) := by
  obtain ⟨hlen, hcols⟩ := hst
  have hent := hcols j hj
  rw [List.get?_eq_getElem?] at hent
  rw [List.get?_eq_getElem?] at hq
  have hfm := firstMatching_isSome qs row hdef
  by_cases ht : colTypes j = true
  · rw [ht] at hw
    match hfmv : firstMatching qs row with
    | none => exact absurd hfmv hfm
    | some none =>
      match hstj : st j with
      | none =>
        have hent2 : pv[j]? = some none := by rw [hent, hstj]; rfl
        unfold childScanStep
        simp [hent2, hq, hw, hfmv, mkEntryC, hstj, bucketVal, ht]
      | some l =>
        have hent2 : pv[j]? = some (some (.lst l)) := by
          rw [hent, hstj]
          simp [mkEntryC, ht]
        unfold childScanStep
        simp [hent2, hq, hw, hfmv, mkEntryC, hstj, bucketVal, ht]
    | some (some q) =>
      match hstj : st j with
      | none =>
        have hent2 : pv[j]? = some none := by rw [hent, hstj]; rfl
        unfold childScanStep
        simp [hent2, hq, hw, hfmv, mkEntryC, hstj, bucketVal, ht]
      | some l =>
        have hent2 : pv[j]? = some (some (.lst l)) := by
          rw [hent, hstj]
          simp [mkEntryC, ht]
        unfold childScanStep
        simp [hent2, hq, hw, hfmv, mkEntryC, hstj, bucketVal, ht]
  · have ht2 : colTypes j = false := by
      cases h : colTypes j
      · rfl
      · exact absurd h ht
    rw [ht2] at hw
    match hfmv : firstMatching qs row with
    | none => exact absurd hfmv hfm
    | some none =>
      match hstj : st j with
      | none =>
        have hent2 : pv[j]? = some none := by rw [hent, hstj]; rfl
        unfold childScanStep
        simp [hent2, hq, hw, mkEntryC, hstj, bucketVal, hfmv, ht2]
      | some s =>
        have hent2 : pv[j]? = some (some (.set (s.foldl setAdd []))) := by
          rw [hent, hstj]
          simp [mkEntryC, ht2]
        unfold childScanStep
        simp [hent2, hq, hw, mkEntryC, hstj, bucketVal, hfmv, ht2]
    | some (some q) =>
      match hstj : st j with
      | none =>
        have hent2 : pv[j]? = some none := by rw [hent, hstj]; rfl
        unfold childScanStep
        simp [hent2, hq, hw, mkEntryC, hstj, bucketVal, hfmv, ht2, setAdd]
      | some s =>
        have hent2 : pv[j]? = some (some (.set (s.foldl setAdd []))) := by
          rw [hent, hstj]
          simp [mkEntryC, ht2]
        unfold childScanStep
        simp [hent2, hq, hw, mkEntryC, hstj, bucketVal, hfmv, ht2, List.foldl_append]

theorem pvStateC_congr (attrCount : Nat) (colTypes : Nat → Bool)
    (st1 st2 : Nat → Option (List Val)) (pv : List (Option PyContainer))
    (hst12 : ∀ j, j < attrCount → st1 j = st2 j)
    (hst : pvStateC attrCount colTypes st1 pv) :
    pvStateC attrCount colTypes st2 pv := by
  obtain ⟨hlen, hcols⟩ := hst
  exact ⟨hlen, fun j hj => by rw [← hst12 j hj]; exact hcols j hj⟩

/-- Scanning one row of GetChildPossibleValues appends, to each column
the row reaches, the row's recorded global candidate for that column
(if any), creating the container either way. -/
theorem childScanRowFold (attrCount : Nat) (colTypes : Nat → Bool)
    (gqs : List (List Question)) (qsOf : Nat → List Question) (row : List Val)
    (hq : ∀ j, j < attrCount → gqs.get? j = some (qsOf j))
    (hdef : ∀ j, j < attrCount → ∀ q ∈ qsOf j, (q.Match row).isSome) :
    ∀ (s : List Val) (k : Nat) (st : Nat → Option (List Val))
      (pv : List (Option PyContainer)),
    pvStateC attrCount colTypes st pv →
    (∀ idx v, s.get? idx = some v → IsFloat v = colTypes (k + idx)) →
    k + s.length ≤ attrCount →
    ∃ pv2, (s.enumFrom k).foldlM (childScanStep gqs row) pv = some pv2 ∧
      pvStateC attrCount colTypes
        (fun j => if k ≤ j ∧ j < k + s.length then
            some ((st j).getD [] ++ (bucketVal (qsOf j) row).toList)
          else st j) pv2 := by
  intro s
  induction s with
  | nil =>
    intro k st pv hst _ _
    refine ⟨pv, by simp [List.enumFrom], ?_⟩
    apply pvStateC_congr attrCount colTypes st _ pv _ hst
    intro j _
    have hfalse : ¬(k ≤ j ∧ j < k + ([] : List Val).length) := by
      simp only [List.length_nil]
      omega
    rw [if_neg hfalse]
  | cons w s ih =>
    intro k st pv hst hty hklen
    have hkattr : k < attrCount := by
      simp only [List.length_cons] at hklen
      omega
    have hw : IsFloat w = colTypes k := by
      have := hty 0 w (by simp)
      simpa using this
    have hstep := childScanStep_ok attrCount colTypes gqs (qsOf k) st pv row k w hst
      hkattr hw (hq k hkattr) (hdef k hkattr)
    have hst2 := pvStateC_set attrCount colTypes st pv k
      (some ((st k).getD [] ++ (bucketVal (qsOf k) row).toList)) hst hkattr
    obtain ⟨pv2, hfold, hst3⟩ := ih (k + 1)
      (fun j2 => if j2 = k then some ((st k).getD [] ++ (bucketVal (qsOf k) row).toList)
        else st j2)
      (pv.set k (mkEntryC (colTypes k)
        (some ((st k).getD [] ++ (bucketVal (qsOf k) row).toList)))) hst2
      (fun idx v hv => by
        have := hty (idx + 1) v (by simpa using hv)
        rw [show k + 1 + idx = k + (idx + 1) by omega]
        exact this)
      (by simp only [List.length_cons] at hklen; omega)
    refine ⟨pv2, ?_, ?_⟩
    · rw [show (w :: s).enumFrom k = (k, w) :: s.enumFrom (k + 1) from rfl]
      rw [List.foldlM_cons, hstep]
      exact hfold
    · apply pvStateC_congr attrCount colTypes _ _ pv2 _ hst3
      intro j _
      by_cases hjk : j = k
      · subst hjk
        have hc1 : ¬(j + 1 ≤ j ∧ j < j + 1 + s.length) := by omega
        have hc2 : j ≤ j ∧ j < j + (w :: s).length := by simp
        simp [hc1, hc2]
      · by_cases hrange : k + 1 ≤ j ∧ j < k + 1 + s.length
        · have hc2 : k ≤ j ∧ j < k + (w :: s).length := by
            simp only [List.length_cons]
            omega
          simp only [hrange, if_true, hjk, if_false, hc2]
        · simp only [List.length_cons]
          rw [if_neg (show ¬(k + 1 ≤ j ∧ j < k + 1 + s.length) by omega),
            if_neg (show ¬(k ≤ j ∧ j < k + (s.length + 1)) by omega),
            if_neg hjk]

/-- Scanning the rows of GetChildPossibleValues over full-length rows
accumulates, per column, the recorded global candidates in row order. -/
theorem childScan_rows (attrCount : Nat) (colTypes : Nat → Bool)
    (gqs : List (List Question)) (qsOf : Nat → List Question)
    (hq : ∀ j, j < attrCount → gqs.get? j = some (qsOf j)) :
    ∀ (data : List (List Val)) (st : Nat → Option (List Val))
      (pv : List (Option PyContainer)),
    pvStateC attrCount colTypes st pv →
    (∀ row ∈ data, ∀ j v, row.get? j = some v → IsFloat v = colTypes j) →
    (∀ row ∈ data, row.length = attrCount) →
    (∀ row ∈ data, ∀ j, j < attrCount → ∀ q ∈ qsOf j, (q.Match row).isSome) →
    ∃ pv2, data.foldlM (fun pv row => childScanRow gqs pv row) pv = some pv2 ∧
      pvStateC attrCount colTypes
        (fun j => match data with
          | [] => st j
          | _ :: _ =>
            if j < attrCount then
              some ((st j).getD [] ++
                data.filterMap (fun row => bucketVal (qsOf j) row))
            else st j) pv2 := by
  intro data
  induction data with
  | nil =>
    intro st pv hst _ _ _
    exact ⟨pv, by simp, hst⟩
  | cons r rest ih =>
    intro st pv hst hty hlen hdef
    have hrlen : r.length = attrCount := hlen r (by simp)
    obtain ⟨pvr, hfoldr, hstr⟩ := childScanRowFold attrCount colTypes gqs qsOf r hq
      (hdef r (by simp)) r 0 st pv hst
      (fun idx v hv => by simpa using hty r (by simp) idx v hv)
      (by omega)
    have hstr2 : pvStateC attrCount colTypes
        (fun j => if j < attrCount then
            some ((st j).getD [] ++ (bucketVal (qsOf j) r).toList)
          else st j) pvr := by
      apply pvStateC_congr attrCount colTypes _ _ pvr _ hstr
      intro j hj
      have : (0 ≤ j ∧ j < 0 + r.length) ↔ j < attrCount := by
        rw [hrlen]
        omega
      simp only [this, hj, if_true]
    obtain ⟨pv2, hfold2, hst2⟩ := ih _ pvr hstr2
      (fun row hrow => hty row (by simp [hrow]))
      (fun row hrow => hlen row (by simp [hrow]))
      (fun row hrow => hdef row (by simp [hrow]))
    refine ⟨pv2, ?_, ?_⟩
    · rw [List.foldlM_cons]
      rw [show childScanRow gqs pv r = (r.enumFrom 0).foldlM (childScanStep gqs r) pv
        from rfl, hfoldr]
      exact hfold2
    · apply pvStateC_congr attrCount colTypes _ _ pv2 _ hst2
      intro j hj
      cases hrest : rest with
      | nil =>
        simp only [hj, if_true]
        cases hb : bucketVal (qsOf j) r <;> simp [hb]
      | cons r2 rest2 =>
        simp only [hj, if_true, List.filterMap_cons]
        cases hb : bucketVal (qsOf j) r
        · simp [hb]
        · simp [hb]

theorem pvStateC_replicate (attrCount : Nat) (colTypes : Nat → Bool) :
    pvStateC attrCount colTypes (fun _ => none) (List.replicate attrCount none) := by
  refine ⟨by simp, ?_⟩
  intro j hj
  rw [List.get?_eq_getElem?]
  simp [List.getElem?_replicate, hj, mkEntryC]

/-- GetChildPossibleValues, characterized on a non-empty, uniformly
typed, full-length dataset: every column holds its recorded global
candidates — deduplicated and sorted for numeric columns, as an
insertion-ordered set for categorical ones. -/
theorem GetChildPossibleValues_char (ctx : TreeCtx) (colTypes : Nat → Bool)
    (qsOf : Nat → List Question) (data : List (List Val))
    (hq : ∀ j, j < ctx.attrCount → ctx.GlobalQuestions.get? j = some (qsOf j))
    (hty : ∀ row ∈ data, ∀ j v, row.get? j = some v → IsFloat v = colTypes j)
    (hlen : ∀ row ∈ data, row.length = ctx.attrCount)
    (hdef : ∀ row ∈ data, ∀ j, j < ctx.attrCount → ∀ q ∈ qsOf j, (q.Match row).isSome)
    (hne : data ≠ []) :
    ∃ childUV, GetChildPossibleValues ctx data = some childUV ∧
      childUV.length = ctx.attrCount ∧
      ∀ j, j < ctx.attrCount →
        childUV.get? j = some (some (
          if colTypes j then
            .lst (dedupSort (data.filterMap (fun row => bucketVal (qsOf j) row)))
          else
            .set ((data.filterMap (fun row => bucketVal (qsOf j) row)).foldl setAdd []))) := by
  obtain ⟨pv2, hfold, hst⟩ := childScan_rows ctx.attrCount colTypes ctx.GlobalQuestions
    qsOf hq data (fun _ => none) (List.replicate ctx.attrCount none)
    (pvStateC_replicate ctx.attrCount colTypes) hty hlen hdef
  obtain ⟨hlen2, hcols2⟩ := hst
  refine ⟨finalizeChild pv2, ?_, by simp [finalizeChild, hlen2], ?_⟩
  · rw [GetChildPossibleValues, hfold]
    rfl
  · intro j hj
    have hent := hcols2 j hj
    rcases data with _ | ⟨r, rest⟩
    · exact absurd rfl hne
    · simp only [hj, if_true] at hent
      rw [finalizeChild, List.get?_map, hent]
      by_cases ht : colTypes j = true
      · simp [mkEntryC, ht, dedupSort]
      · have ht2 : colTypes j = false := by
          cases h : colTypes j
          · rfl
          · exact absurd h ht
        simp [mkEntryC, ht2]

theorem mem_setAdd (s : List Val) (v w : Val) : w ∈ setAdd s v ↔ w ∈ s ∨ w = v := by
  rw [setAdd]
  by_cases h : v ∈ s
  · simp [h]
    intro hw
    rw [hw]
    exact h
  · simp [h]

theorem nodup_setAdd (s : List Val) (v : Val) (h : s.Nodup) : (setAdd s v).Nodup := by
  rw [setAdd]
  by_cases hv : v ∈ s
  · simp [hv, h]
  · simp [hv, h, List.nodup_append, List.disjoint_singleton]

theorem setAdd_idem (s : List Val) (v : Val) : setAdd (setAdd s v) v = setAdd s v := by
  rw [setAdd, if_pos ((mem_setAdd s v v).2 (Or.inr rfl))]

theorem mem_foldl_setAdd (l : List Val) (s : List Val) (w : Val) :
    w ∈ l.foldl setAdd s ↔ w ∈ s ∨ w ∈ l := by
  induction l generalizing s with
  | nil => simp
  | cons v rest ih =>
    rw [List.foldl_cons, ih, mem_setAdd]
    constructor
    · rintro ((h | h) | h)
      · exact Or.inl h
      · exact Or.inr (by simp [h])
      · exact Or.inr (by simp [h])
    · rintro (h | h)
      · exact Or.inl (Or.inl h)
      · rcases List.mem_cons.1 h with h | h
        · exact Or.inl (Or.inr h)
        · exact Or.inr h

theorem nodup_foldl_setAdd (l : List Val) (s : List Val) (h : s.Nodup) :
    (l.foldl setAdd s).Nodup := by
  induction l generalizing s with
  | nil => simpa
  | cons v rest ih => exact ih (setAdd s v) (nodup_setAdd s v h)

theorem foldl_setAdd_replicate (n : Nat) (v : Val) (s : List Val) :
    (List.replicate (n + 1) v).foldl setAdd s = setAdd s v := by
  induction n generalizing s with
  | zero => rfl
  | succ n ih =>
    rw [List.replicate_succ, List.foldl_cons]
    rw [show List.replicate (n + 1) v = List.replicate (n + 1) v from rfl]
    rw [ih (setAdd s v), setAdd_idem]

theorem dedup_replicate (n : Nat) (v : Val) :
    (List.replicate (n + 1) v).dedup = [v] := by
  induction n with
  | zero => simp
  | succ n ih =>
    rw [List.replicate_succ, List.dedup_cons_of_mem (by simp), ih]

theorem filterMap_const_replicate {α β : Type} (f : α → Option β) (l : List α) (v : β)
    (h : ∀ x ∈ l, f x = some v) : l.filterMap f = List.replicate l.length v := by
  induction l with
  | nil => simp
  | cons x rest ih =>
    rw [List.filterMap_cons, h x (by simp), List.length_cons, List.replicate_succ,
      ih (fun y hy => h y (by simp [hy]))]

/-- Python dict counting step of LeafNode.CalculateCounts
(DecisionTree.py lines 77-78): counts.setdefault(val, 0) then
counts[val] += 1, on the insertion-ordered association list. -/
def bumpCount (counts : List (Val × Nat)) (v : Val) : List (Val × Nat) :=
  if counts.any (fun p => pyEq p.1 v) then
    counts.map (fun p => if pyEq p.1 v then (p.1, p.2 + 1) else p)
  else counts ++ [(v, 1)]

/-- Embedding of LeafNode.CalculateCounts (DecisionTree.py lines
73-80): tally each row's last element; an empty row raises IndexError
on row[len(row) - 1]. -/
def CalculateCounts (aRowData : List (List Val)) : Option (List (Val × Nat)) :=
  aRowData.foldlM
    (fun counts row => (row.get? (row.length - 1)).map (fun val => bumpCount counts val)) []

/-- When every row carries the same label L, the leaf counts are the
single pair (L, number of rows). -/
theorem CalculateCounts_const (data : List (List Val)) (L : Val)
    (h : ∀ row ∈ data, row.get? (row.length - 1) = some L) (hne : data ≠ []) :
    CalculateCounts data = some [(L, data.length)] := by
  have hgo : ∀ (rows : List (List Val)), (∀ row ∈ rows, row.get? (row.length - 1) = some L) →
      ∀ k, rows.foldlM
        (fun counts row => (row.get? (row.length - 1)).map (fun val => bumpCount counts val))
        [(L, k)] = some [(L, k + rows.length)] := by
    intro rows
    induction rows with
    | nil => intro _ k; simp
    | cons r rest ih =>
      intro hall k
      rw [List.foldlM_cons, hall r (by simp)]
      have hbump : bumpCount [(L, k)] L = [(L, k + 1)] := by
        rw [bumpCount]
        simp [pyEq_iff_eq]
      simp only [Option.map_some', hbump]
      rw [show ∀ x, (some x >>= fun b => List.foldlM
        (fun counts row => (row.get? (row.length - 1)).map (fun val => bumpCount counts val))
        b rest) = List.foldlM
        (fun counts row => (row.get? (row.length - 1)).map (fun val => bumpCount counts val))
        x rest from fun x => rfl]
      rw [ih (fun row hrow => hall row (by simp [hrow])) (k + 1)]
      simp only [List.length_cons]
      rw [show k + 1 + rest.length = k + (rest.length + 1) by omega]
  rcases data with _ | ⟨r, rest⟩
  · exact absurd rfl hne
  · rw [CalculateCounts, List.foldlM_cons, h r (by simp)]
    have hbump : bumpCount [] L = [(L, 1)] := by rw [bumpCount]; simp
    simp only [Option.map_some', hbump]
    rw [show ∀ x, (some x >>= fun b => List.foldlM
      (fun counts row => (row.get? (row.length - 1)).map (fun val => bumpCount counts val))
      b rest) = List.foldlM
      (fun counts row => (row.get? (row.length - 1)).map (fun val => bumpCount counts val))
      x rest from fun x => rfl]
    rw [hgo rest (fun row hrow => h row (by simp [hrow])) 1]
    simp only [List.length_cons]
    rw [show 1 + rest.length = rest.length + 1 by omega]

/-- Python list indexing with possibly negative index (list wrap-around
semantics), as used by childUniqueValues[attributeIndex] in
CreateTreeRecursive where attributeIndex comes from FindBestSplit as an
int that is -1 when no attribute qualified. -/
def pyIdx {α : Type} (l : List α) (i : Int) : Option α :=
  if 0 ≤ i then l.get? i.toNat
  else if (-i).toNat ≤ l.length then l.get? (l.length - (-i).toNat) else none

/-- One row of the partition loop of CreateTreeRecursive
(DecisionTree.py lines 360-366): the row joins the group of the first
question it matches (creating the group on first use), and is dropped
when no question matches; a Match exception propagates. -/
def splitRowStep (questions : List Question) (ss : List (Option (List (List Val))))
    (row : List Val) : Option (List (Option (List (List Val)))) :=
  match firstMatchIdx questions row with
  | none => none
  | some none => some ss
  | some (some i) =>
    match ss.get? i with
    | none => none
    | some cur => some (ss.set i (some (cur.getD [] ++ [row])))

/-- The partition of CreateTreeRecursive (DecisionTree.py lines
359-366): splitSets = [None] * len(questions), then each row is
appended to the group of the first question it matches. -/
def splitSets (questions : List Question) (dataSet : List (List Val)) :
    Option (List (Option (List (List Val)))) :=
  dataSet.foldlM (splitRowStep questions) (List.replicate questions.length none)

/-- Embedding of DecisionTree.CreateTreeRecursive (DecisionTree.py
lines 332-377), with explicit recursion fuel standing for Python's
unbounded call stack (every theorem supplies enough fuel; fuel 0 is
modelled as an error).  Depth bookkeeping (self.Depth) only feeds
printing and is not part of the returned tree.  Notes: a negative
attributeIndex from FindBestSplit would make Python wrap around into
the label column; that situation requires CanSplit and FindBestSplit to
disagree, which the C2/C6 characterizations rule out on well-formed
data, and it is modelled as an error.  Recursing into a None group
raises in GetChildPossibleValues (for row in None), hence none. -/
def CreateTreeRecursive (ctx : TreeCtx) : Nat → List (List Val) → Nat → Option Node
  | 0, _, _ => none
  | fuel + 1, dataSet, depth => do
    let childUniqueValues ← GetChildPossibleValues ctx dataSet
    let canSplit ← CanSplit dataSet childUniqueValues ctx.GlobalUniqueValues
    if canSplit = false then
      let counts ← CalculateCounts dataSet
      pure (.leaf counts)
    else do
      let best ← FindBestSplit dataSet childUniqueValues
      let attOpt ← pyIdx childUniqueValues best.2
      let attCont ← attOpt
      let attrIndex ← (if 0 ≤ best.2 then some best.2.toNat else none)
      let questions := attCont.toList.map (fun att => Question.mk attrIndex att)
      let groups ← splitSets questions dataSet
      let branches ← groups.mapM (fun group =>
        match group with
        | none => none
        | some rows => CreateTreeRecursive ctx fuel rows (depth + 1))
      pure (.node questions branches)

/-- On the label column, the first matching question is determined by
the label value alone: two rows with the same label get the same
answer. -/
theorem firstMatching_const (qs : List Question) (lab : Nat) (L : Val)
    (hattrq : ∀ q ∈ qs, q.Attribute = lab) (row1 row2 : List Val)
    (h1 : row1.get? lab = some L) (h2 : row2.get? lab = some L) :
    firstMatching qs row1 = firstMatching qs row2 := by
  induction qs with
  | nil => rfl
  | cons q rest ih =>
    have ha := hattrq q (by simp)
    have hm1 : q.Match row1 = (if IsFloat L then pyLe L q.Value else some (pyEq L q.Value)) := by
      rw [Question.Match, ha, h1]
    have hm2 : q.Match row2 = (if IsFloat L then pyLe L q.Value else some (pyEq L q.Value)) := by
      rw [Question.Match, ha, h2]
    have ihr := ih (fun p hp => hattrq p (by simp [hp]))
    match hv : (if IsFloat L then pyLe L q.Value else some (pyEq L q.Value)) with
    | none => simp [firstMatching, hm1, hm2, hv]
    | some true => simp [firstMatching, hm1, hm2, hv]
    | some false => simp [firstMatching, hm1, hm2, hv, ihr]

/-- When every Match is defined and some question matches, the
first-matching search returns a question. -/
theorem firstMatching_mem (qs : List Question) (row : List Val)
    (hdef : ∀ q ∈ qs, (q.Match row).isSome)
    (hcov : ∃ q ∈ qs, q.Match row = some true) :
    ∃ q0, firstMatching qs row = some (some q0) := by
  induction qs with
  | nil => simp at hcov
  | cons q rest ih =>
    match hm : q.Match row with
    | none =>
      have := hdef q (by simp)
      rw [hm] at this
      simp at this
    | some true => exact ⟨q, by simp [firstMatching, hm]⟩
    | some false =>
      obtain ⟨q1, hq1m, hq1⟩ := hcov
      rcases List.mem_cons.1 hq1m with hcase | hcase
      · rw [hcase] at hq1
        rw [hq1] at hm
        simp at hm
      · exact ih (fun p hp => hdef p (by simp [hp])) ⟨q1, hcase, hq1⟩ |>.imp
          (fun q0 h => by simp [firstMatching, hm, h])

/-- Claim C4: on a non-empty dataset whose rows all carry the same
label L (under the data-model hypotheses: full-length, consistently
typed rows; global questions present with defined matches; the label
column's questions test the label column; every row's label matches
some global label question, which holds because the global candidates
were built from a superset of the data), the recursive build
immediately returns a LeafNode whose counts mapping has exactly the one
key L with value the number of rows. -/
theorem C4_pure_leaf (ctx : TreeCtx) (colTypes : Nat → Bool)
    (qsOf : Nat → List Question) (data : List (List Val)) (L : Val)
    (fuel depth : Nat)
    (hattr : 1 ≤ ctx.attrCount)
    (hne : data ≠ [])
    (hrowlen : ∀ row ∈ data, row.length = ctx.attrCount)
    (hty : ∀ row ∈ data, ∀ j v, row.get? j = some v → IsFloat v = colTypes j)
    (hq : ∀ j, j < ctx.attrCount → ctx.GlobalQuestions.get? j = some (qsOf j))
    (hqdef : ∀ row ∈ data, ∀ j, j < ctx.attrCount → ∀ q ∈ qsOf j, (q.Match row).isSome)
    (hattrq : ∀ q ∈ qsOf (ctx.attrCount - 1), q.Attribute = ctx.attrCount - 1)
    (hlab : ∀ row ∈ data, row.get? (ctx.attrCount - 1) = some L)
    (hcov : ∀ row ∈ data, ∃ q ∈ qsOf (ctx.attrCount - 1), q.Match row = some true) :
    CreateTreeRecursive ctx (fuel + 1) data depth =
      some (.leaf [(L, data.length)]) := by
  obtain ⟨childUV, hUV, hUVlen, hUVcols⟩ := GetChildPossibleValues_char ctx colTypes
    qsOf data hq hty hrowlen hqdef hne
  have hjlab : ctx.attrCount - 1 < ctx.attrCount := by omega
  obtain ⟨r0, rest, rfl⟩ : ∃ r0 rest, data = r0 :: rest := by
    rcases data with _ | ⟨r0, rest⟩
    · exact absurd rfl hne
    · exact ⟨r0, rest, rfl⟩
  obtain ⟨q0, hq0⟩ := firstMatching_mem (qsOf (ctx.attrCount - 1)) r0
    (hqdef r0 (by simp) _ hjlab) (hcov r0 (by simp))
  have hbucket : ∀ row ∈ r0 :: rest,
      bucketVal (qsOf (ctx.attrCount - 1)) row = some q0.Value := by
    intro row hrow
    have hconst := firstMatching_const (qsOf (ctx.attrCount - 1)) (ctx.attrCount - 1) L
      hattrq row r0 (hlab row hrow) (hlab r0 (by simp))
    rw [bucketVal, hconst, hq0]
  have hcollected : (r0 :: rest).filterMap (fun row => bucketVal (qsOf (ctx.attrCount - 1)) row) =
      List.replicate (rest.length + 1) q0.Value := by
    have := filterMap_const_replicate (fun row => bucketVal (qsOf (ctx.attrCount - 1)) row)
      (r0 :: rest) q0.Value hbucket
    simpa using this
  have hcont := hUVcols (ctx.attrCount - 1) hjlab
  rw [hcollected] at hcont
  have hlen1 : ∀ cont, childUV.get? (ctx.attrCount - 1) = some (some cont) → cont.len = 1 := by
    intro cont hc
    rw [hcont] at hc
    injection hc with hc
    injection hc with hc
    rw [← hc]
    by_cases ht : colTypes (ctx.attrCount - 1) = true
    · simp only [ht, if_true]
      rw [PyContainer.len, PyContainer.toList, dedupSort, dedup_replicate]
      rfl
    · have ht2 : colTypes (ctx.attrCount - 1) = false := by
        cases h : colTypes (ctx.attrCount - 1)
        · rfl
        · exact absurd h ht
      simp only [ht2, Bool.false_eq_true, if_false]
      rw [PyContainer.len, PyContainer.toList, foldl_setAdd_replicate]
      rfl
  have hCS : CanSplit (r0 :: rest) childUV ctx.GlobalUniqueValues = some false := by
    have hgetlast : childUV.get? (childUV.length - 1) =
        some (some (if colTypes (ctx.attrCount - 1) then
          PyContainer.lst (dedupSort (List.replicate (rest.length + 1) q0.Value))
        else PyContainer.set
          ((List.replicate (rest.length + 1) q0.Value).foldl setAdd []))) := by
      rw [hUVlen]
      exact hcont
    have hl1 := hlen1 _ (hUVlen ▸ hgetlast)
    rw [CanSplit]
    rw [List.get?_eq_getElem?] at hgetlast
    simp [hgetlast, hl1]
  have hCC : CalculateCounts (r0 :: rest) = some [(L, (r0 :: rest).length)] := by
    apply CalculateCounts_const _ _ ?_ (by simp)
    intro row hrow
    rw [hrowlen row hrow]
    exact hlab row hrow
  simp only [CreateTreeRecursive, hUV, Option.some_bind, hCS, hCC]
  simp [hCS, hCC]

/-- Witness for C4_pure_leaf: two identical rows labelled "Yes" produce
the leaf {"Yes": 2} in one build step. -/
theorem C4_pure_leaf_witness :
    CreateTreeRecursive
      ⟨2, [some (.set [.str "Sunny"]), some (.set [.str "Yes"])],
        [[⟨0, .str "Sunny"⟩], [⟨1, .str "Yes"⟩]]⟩ (0 + 1)
      [[Val.str "Sunny", Val.str "Yes"], [Val.str "Sunny", Val.str "Yes"]] 0 =
      some (.leaf [(Val.str "Yes",
        ([[Val.str "Sunny", Val.str "Yes"], [Val.str "Sunny", Val.str "Yes"]] :
          List (List Val)).length)]) :=
  C4_pure_leaf
    ⟨2, [some (.set [.str "Sunny"]), some (.set [.str "Yes"])],
      [[⟨0, .str "Sunny"⟩], [⟨1, .str "Yes"⟩]]⟩
    (fun _ => false)
    (fun j => if j = 0 then [⟨0, .str "Sunny"⟩] else [⟨1, .str "Yes"⟩])
    [[Val.str "Sunny", Val.str "Yes"], [Val.str "Sunny", Val.str "Yes"]]
    (Val.str "Yes") 0 0
    (by decide) (by decide) (by decide)
    (by
      intro row hrow j v hv
      have hmem : v ∈ row := List.get?_mem hv
      fin_cases hrow <;> fin_cases hmem <;> rfl)
    (by decide) (by decide) (by decide) (by decide) (by decide)

/-- Construction form of firstMatchIdx: if question i matches the row
and every earlier question answers False, the scan stops at index i. -/
theorem firstMatchIdx_of (qs : List Question) (row : List Val) :
    ∀ (i : Nat) (qi : Question), qs.get? i = some qi → qi.Match row = some true →
    (∀ j, j < i → ∀ qj, qs.get? j = some qj → qj.Match row = some false) →
    firstMatchIdx qs row = some (some i) := by
  induction qs with
  | nil =>
    intro i qi hget _ _
    simp at hget
  | cons q rest ih =>
    intro i qi hget hmatch hbefore
    rcases i with _ | n
    · rw [List.get?_cons_zero] at hget
      injection hget with h
      subst h
      simp [firstMatchIdx, hmatch]
    · have h0 : q.Match row = some false :=
        hbefore 0 (Nat.succ_pos n) q List.get?_cons_zero
      have hrest : firstMatchIdx rest row = some (some n) :=
        ih n qi (by rw [List.get?_cons_succ] at hget; exact hget) hmatch
          (fun j hj qj hqj => hbefore (j + 1) (by omega) qj
            (by rw [List.get?_cons_succ]; exact hqj))
      simp [firstMatchIdx, h0, hrest]

/-- Characterization of a successful firstMatching scan: the returned
question sits at some index, matches the row, and every earlier
question answers False. -/
theorem firstMatching_char (qs : List Question) (row : List Val) :
    ∀ q, firstMatching qs row = some (some q) →
    ∃ i, qs.get? i = some q ∧ q.Match row = some true ∧
      ∀ j, j < i → ∀ qj, qs.get? j = some qj → qj.Match row = some false := by
  induction qs with
  | nil =>
    intro q h
    simp [firstMatching] at h
  | cons p rest ih =>
    intro q h
    match hm : p.Match row with
    | none => simp [firstMatching, hm] at h
    | some true =>
      simp only [firstMatching, hm, Option.some.injEq] at h
      subst h
      exact ⟨0, List.get?_cons_zero, hm, fun j hj => absurd hj (Nat.not_lt_zero j)⟩
    | some false =>
      simp only [firstMatching, hm] at h
      obtain ⟨i, hgi, hqm, hbef⟩ := ih q h
      refine ⟨i + 1, ?_, hqm, ?_⟩
      · rw [List.get?_cons_succ]
        exact hgi
      · intro j hj qj hqj
        rcases j with _ | m
        · rw [List.get?_cons_zero] at hqj
          injection hqj with h2
          rw [← h2]
          exact hm
        · rw [List.get?_cons_succ] at hqj
          exact hbef m (by omega) qj hqj

/-- The group that the partition loop of CreateTreeRecursive has built
for question index i after processing the given rows: None when no row
matched i first, else the rows whose first match is i, in order. -/
def grpOf (qs : List Question) (done : List (List Val)) (i : Nat) :
    Option (List (List Val)) :=
  if done.filter (fun x => decide (firstMatchIdx qs x = some (some i))) = [] then none
  else some (done.filter (fun x => decide (firstMatchIdx qs x = some (some i))))

theorem grpOf_append_nomatch (qs : List Question) (done : List (List Val))
    (r : List Val) (hr : firstMatchIdx qs r = some none) (i : Nat) :
    grpOf qs (done ++ [r]) i = grpOf qs done i := by
  simp [grpOf, List.filter_append, hr]

theorem grpOf_append_match (qs : List Question) (done : List (List Val))
    (r : List Val) (k : Nat) (hr : firstMatchIdx qs r = some (some k)) :
    grpOf qs (done ++ [r]) k = some ((grpOf qs done k).getD [] ++ [r]) := by
  have hfr : [r].filter (fun x => decide (firstMatchIdx qs x = some (some k))) = [r] := by
    simp [hr]
  rw [grpOf, grpOf, List.filter_append, hfr]
  by_cases hF : done.filter (fun x => decide (firstMatchIdx qs x = some (some k))) = [] <;>
    simp [hF]

theorem grpOf_append_other (qs : List Question) (done : List (List Val))
    (r : List Val) (k i : Nat) (hr : firstMatchIdx qs r = some (some k)) (hik : i ≠ k) :
    grpOf qs (done ++ [r]) i = grpOf qs done i := by
  have hfr : [r].filter (fun x => decide (firstMatchIdx qs x = some (some i))) = [] := by
    simp [hr, Ne.symm hik]
  rw [grpOf, grpOf, List.filter_append, hfr, List.append_nil]

/-- Fold characterization of the row-partition loop of
CreateTreeRecursive: starting from the state reflecting the already
processed rows, folding the remaining rows succeeds and yields the
state reflecting all rows. -/
theorem splitFold_char (qs : List Question) (data : List (List Val)) :
    ∀ (done : List (List Val)) (ss : List (Option (List (List Val)))),
    (∀ r ∈ data, (firstMatchIdx qs r).isSome) →
    ss.length = qs.length →
    (∀ i, i < qs.length → ss.get? i = some (grpOf qs done i)) →
    ∃ ss2, data.foldlM (splitRowStep qs) ss = some ss2 ∧
      ss2.length = qs.length ∧
      ∀ i, i < qs.length → ss2.get? i = some (grpOf qs (done ++ data) i) := by
  induction data with
  | nil =>
    intro done ss _ hlen hst
    exact ⟨ss, by simp, hlen, by simpa using hst⟩
  | cons r rest ih =>
    intro done ss hdef hlen hst
    have hr : (firstMatchIdx qs r).isSome := hdef r (by simp)
    match hm : firstMatchIdx qs r with
    | none => rw [hm] at hr; simp at hr
    | some none =>
      have hstep : splitRowStep qs ss r = some ss := by
        simp only [splitRowStep, hm]
      rw [List.foldlM_cons, hstep]
      have hst2 : ∀ i, i < qs.length → ss.get? i = some (grpOf qs (done ++ [r]) i) := by
        intro i hi
        rw [grpOf_append_nomatch qs done r hm i]
        exact hst i hi
      obtain ⟨ss2, hfold, hlen2, hst3⟩ := ih (done ++ [r]) ss
        (fun x hx => hdef x (by simp [hx])) hlen hst2
      refine ⟨ss2, ?_, hlen2, ?_⟩
      · show rest.foldlM (splitRowStep qs) ss = some ss2
        exact hfold
      · intro i hi
        rw [List.append_cons]
        exact hst3 i hi
    | some (some k) =>
      have hk : k < qs.length := firstMatchIdx_lt qs r k hm
      have hcur : ss.get? k = some (grpOf qs done k) := hst k hk
      have hstep : splitRowStep qs ss r =
          some (ss.set k (some ((grpOf qs done k).getD [] ++ [r]))) := by
        simp only [splitRowStep, hm, hcur]
      rw [List.foldlM_cons, hstep]
      have hlen1 : (ss.set k (some ((grpOf qs done k).getD [] ++ [r]))).length = qs.length := by
        rw [List.length_set]
        exact hlen
      have hst1 : ∀ i, i < qs.length →
          (ss.set k (some ((grpOf qs done k).getD [] ++ [r]))).get? i =
            some (grpOf qs (done ++ [r]) i) := by
        intro i hi
        by_cases hik : i = k
        · subst hik
          rw [List.get?_set_eq_of_lt _ (by omega)]
          rw [grpOf_append_match qs done r i hm]
        · rw [List.get?_set_ne _ _ (fun h => hik h.symm)]
          rw [grpOf_append_other qs done r k i hm hik]
          exact hst i hi
      obtain ⟨ss2, hfold, hlen2, hst3⟩ := ih (done ++ [r])
        (ss.set k (some ((grpOf qs done k).getD [] ++ [r])))
        (fun x hx => hdef x (by simp [hx])) hlen1 hst1
      refine ⟨ss2, ?_, hlen2, ?_⟩
      · show rest.foldlM (splitRowStep qs)
          (ss.set k (some ((grpOf qs done k).getD [] ++ [r]))) = some ss2
        exact hfold
      · intro i hi
        rw [List.append_cons]
        exact hst3 i hi

/-- The partition of CreateTreeRecursive succeeds on any subset all of
whose rows have a defined first-match scan, and produces per-question
groups that are exactly the rows whose first match is that question. -/
theorem splitSets_char (qs : List Question) (data : List (List Val))
    (hdef : ∀ r ∈ data, (firstMatchIdx qs r).isSome) :
    ∃ groups, splitSets qs data = some groups ∧ groups.length = qs.length ∧
      ∀ i, i < qs.length → groups.get? i = some (grpOf qs data i) := by
  have hinit : ∀ i, i < qs.length →
      (List.replicate qs.length (none : Option (List (List Val)))).get? i =
        some (grpOf qs [] i) := by
    intro i hi
    rw [List.get?_eq_getElem?, List.getElem?_replicate, if_pos hi]
    rfl
  obtain ⟨ss2, hfold, hlen, hst⟩ := splitFold_char qs data [] (List.replicate qs.length none)
    hdef (by simp) hinit
  refine ⟨ss2, ?_, hlen, ?_⟩
  · rw [splitSets]
    exact hfold
  · intro i hi
    simpa using hst i hi

/-- When every question index is the first match of at least one row,
the partition succeeds and every group is present (not None), non-empty
and drawn from the current subset. -/
theorem groups_all_nonempty (qs : List Question) (data : List (List Val))
    (hdefall : ∀ r ∈ data, (firstMatchIdx qs r).isSome)
    (hhit : ∀ i, i < qs.length → ∃ r ∈ data, firstMatchIdx qs r = some (some i)) :
    ∃ groups, splitSets qs data = some groups ∧ groups.length = qs.length ∧
      ∀ i, i < groups.length → ∃ grp, groups.get? i = some (some grp) ∧ grp ≠ [] ∧
        ∀ x ∈ grp, x ∈ data := by
  obtain ⟨groups, hsplit, hlen, hst⟩ := splitSets_char qs data hdefall
  refine ⟨groups, hsplit, hlen, ?_⟩
  intro i hi
  rw [hlen] at hi
  obtain ⟨r, hrmem, hrfm⟩ := hhit i hi
  have hflt : r ∈ data.filter (fun x => decide (firstMatchIdx qs x = some (some i))) :=
    List.mem_filter.2 ⟨hrmem, by simp [hrfm]⟩
  have hne2 : data.filter (fun x => decide (firstMatchIdx qs x = some (some i))) ≠ [] := by
    intro h
    rw [h] at hflt
    simp at hflt
  refine ⟨data.filter (fun x => decide (firstMatchIdx qs x = some (some i))), ?_, hne2, ?_⟩
  · rw [hst i hi, grpOf, if_neg hne2]
  · intro x hx
    exact (List.mem_filter.1 hx).1

/-- Every collected bucket value of a column arises as the Value of the
first globally matching question of some row of the subset. -/
theorem collected_gen (gqs : List Question) (data : List (List Val)) (x : Val)
    (hx : x ∈ data.filterMap (fun row => bucketVal gqs row)) :
    ∃ r ∈ data, ∃ q, firstMatching gqs r = some (some q) ∧ q.Value = x := by
  obtain ⟨r, hr, hbv⟩ := List.mem_filterMap.1 hx
  refine ⟨r, hr, ?_⟩
  simp only [bucketVal] at hbv
  match hfm : firstMatching gqs r with
  | none => rw [hfm] at hbv; simp at hbv
  | some none => rw [hfm] at hbv; simp at hbv
  | some (some q) =>
    rw [hfm] at hbv
    simp only [Option.some.injEq] at hbv
    exact ⟨q, rfl, hbv⟩

/-- A row of the stated width has a value in every column. -/
theorem row_get_val (row : List Val) (a n : Nat) (hlen : row.length = n) (ha : a < n) :
    ∃ v, row.get? a = some v := by
  rcases h : row.get? a with _ | v
  · rw [List.get?_eq_none] at h
    omega
  · exact ⟨v, rfl⟩

/-- Questions built from candidates compatible with the row value have
a defined Match: a non-numeric row value always takes the equality
branch, and a numeric one compares against numeric candidates. -/
theorem local_match_defined (a : Nat) (cs : List Val) (r : List Val) (v : Val)
    (hget : r.get? a = some v)
    (hcompat : IsFloat v = true → ∀ x ∈ cs, IsFloat x = true) :
    ∀ q ∈ cs.map (Question.mk a), (q.Match r).isSome := by
  rw [List.get?_eq_getElem?] at hget
  intro q hq
  obtain ⟨x, hx, hxq⟩ := List.mem_map.1 hq
  subst hxq
  cases hv : IsFloat v with
  | false => simp [Question.Match, hget, hv]
  | true =>
    have hxf := hcompat hv x hx
    cases v with
    | str s => simp [IsFloat] at hv
    | num vq =>
      cases x with
      | str s => simp [IsFloat] at hxf
      | num xq => simp [Question.Match, hget, IsFloat, pyLe]

/-- On a numeric column scanned against questions with ascending
thresholds, the first matching question holds the least threshold that
is at least the row value. -/
theorem firstMatching_min_num (gqs : List Question) (r : List Val) (a : Nat) (v : ℚ)
    (q0 : Question)
    (hattr : ∀ p ∈ gqs, p.Attribute = a)
    (hget : r.get? a = some (.num v))
    (hfm : firstMatching gqs r = some (some q0))
    (hsorted : gqs.Pairwise (fun p p2 => valLeb p.Value p2.Value = true)) :
    ∃ c : ℚ, q0.Value = .num c ∧ v ≤ c ∧
      ∀ p ∈ gqs, ∀ d : ℚ, p.Value = .num d → v ≤ d → c ≤ d := by
  obtain ⟨i0, hgeti, hmatch, hbefore⟩ := firstMatching_char gqs r q0 hfm
  have hq0a : q0.Attribute = a := hattr q0 (List.get?_mem hgeti)
  have hget2 := hget
  rw [List.get?_eq_getElem?] at hget2
  cases hq0v : q0.Value with
  | str s =>
    simp [Question.Match, hq0a, hget2, hq0v, IsFloat, pyLe] at hmatch
  | num c =>
    simp [Question.Match, hq0a, hget2, hq0v, IsFloat, pyLe] at hmatch
    refine ⟨c, rfl, hmatch, ?_⟩
    intro p hp d hpd hvd
    obtain ⟨⟨j, hjlen⟩, hgj⟩ := List.mem_iff_get.1 hp
    have hgjq : gqs.get? j = some p := by
      rw [List.get?_eq_get hjlen, hgj]
    by_cases hji : j < i0
    · have hfalse := hbefore j hji p hgjq
      simp [Question.Match, hattr p hp, hget2, hpd, IsFloat, pyLe] at hfalse
      exact absurd hvd (not_le.2 hfalse)
    · have hi0len : i0 < gqs.length := (List.get?_eq_some.1 hgeti).1
      have hg0 : gqs.get ⟨i0, hi0len⟩ = q0 := by
        obtain ⟨h, hh⟩ := List.get?_eq_some.1 hgeti
        exact hh
      by_cases hij : i0 = j
      · subst hij
        have hpq : p = q0 := by
          rw [← hgj, ← hg0]
        rw [hpq, hq0v] at hpd
        injection hpd with h
        exact le_of_eq h
      · have hij2 : i0 < j := by omega
        have hpair := List.pairwise_iff_get.1 hsorted ⟨i0, hi0len⟩ ⟨j, hjlen⟩ (by exact hij2)
        simp only [hg0, hgj, hq0v, hpd] at hpair
        simpa [valLeb] using hpair

/-- On a numeric column, a row whose first global match has threshold c
is assigned by the local candidate scan to the index of c in the
sorted duplicate-free local candidate list. -/
theorem numeric_first_local (a : Nat) (cs : List Val) (r : List Val) (v c : ℚ) (k : Nat)
    (hget : r.get? a = some (.num v))
    (hk : cs.get? k = some (.num c))
    (hvc : v ≤ c)
    (hmin : ∀ d : ℚ, (Val.num d) ∈ cs → v ≤ d → c ≤ d)
    (hnodup : cs.Nodup)
    (hsorted : cs.Pairwise (fun x y => valLeb x y = true)) :
    firstMatchIdx (cs.map (Question.mk a)) r = some (some k) := by
  rw [List.get?_eq_getElem?] at hget
  apply firstMatchIdx_of (cs.map (Question.mk a)) r k (Question.mk a (.num c))
  · rw [List.get?_map, hk]
    rfl
  · simp [Question.Match, hget, IsFloat, pyLe, hvc]
  · intro j hj qj hqj
    rw [List.get?_map] at hqj
    cases hgj : cs.get? j with
    | none => rw [hgj] at hqj; simp at hqj
    | some x =>
      rw [hgj] at hqj
      injection hqj with hqj
      have hklen : k < cs.length := (List.get?_eq_some.1 hk).1
      have hjlen : j < cs.length := (List.get?_eq_some.1 hgj).1
      have hgk2 : cs.get ⟨k, hklen⟩ = .num c := by
        obtain ⟨h, hh⟩ := List.get?_eq_some.1 hk
        exact hh
      have hgj2 : cs.get ⟨j, hjlen⟩ = x := by
        obtain ⟨h, hh⟩ := List.get?_eq_some.1 hgj
        exact hh
      have hpair := List.pairwise_iff_get.1 hsorted ⟨j, hjlen⟩ ⟨k, hklen⟩ (by exact hj)
      rw [hgj2, hgk2] at hpair
      cases x with
      | str s => simp [valLeb] at hpair
      | num d =>
        have hdc : d ≤ c := by simpa [valLeb] using hpair
        have hdmem : Val.num d ∈ cs := List.get?_mem hgj
        have hne2 : d ≠ c := by
          intro h
          subst h
          have heq := hgj2.trans hgk2.symm
          have := (List.Nodup.get_inj_iff hnodup).1 heq
          simp at this
          omega
        have hnvd : ¬ v ≤ d := by
          intro hvd
          exact hne2 (le_antisymm hdc (hmin d hdmem hvd))
        rw [← hqj]
        simp [Question.Match, hget, IsFloat, pyLe, hnvd]

/-- On a non-numeric column, a row is assigned by the local candidate
scan to the index of its own value in the duplicate-free candidate
list. -/
theorem cat_first_local (a : Nat) (cs : List Val) (r : List Val) (v : Val) (k : Nat)
    (hget : r.get? a = some v) (hvstr : IsFloat v = false)
    (hk : cs.get? k = some v) (hnodup : cs.Nodup) :
    firstMatchIdx (cs.map (Question.mk a)) r = some (some k) := by
  rw [List.get?_eq_getElem?] at hget
  apply firstMatchIdx_of (cs.map (Question.mk a)) r k (Question.mk a v)
  · rw [List.get?_map, hk]
    rfl
  · simp [Question.Match, hget, hvstr, pyEq_iff_eq]
  · intro j hj qj hqj
    rw [List.get?_map] at hqj
    cases hgj : cs.get? j with
    | none => rw [hgj] at hqj; simp at hqj
    | some x =>
      rw [hgj] at hqj
      injection hqj with hqj
      have hxv : x ≠ v := by
        intro h
        subst h
        have hjlen : j < cs.length := (List.get?_eq_some.1 hgj).1
        have hklen : k < cs.length := (List.get?_eq_some.1 hk).1
        have h1 : cs.get ⟨j, hjlen⟩ = x := by
          obtain ⟨h, hh⟩ := List.get?_eq_some.1 hgj
          exact hh
        have h2 : cs.get ⟨k, hklen⟩ = x := by
          obtain ⟨h, hh⟩ := List.get?_eq_some.1 hk
          exact hh
        have := (List.Nodup.get_inj_iff hnodup).1 (h1.trans h2.symm)
        simp at this
        omega
      have hpe : pyEq v x = false := by
        cases hp : pyEq v x
        · rfl
        · exact absurd ((pyEq_iff_eq v x).1 hp).symm hxv
      rw [← hqj]
      simp [Question.Match, hget, hvstr, hpe]

/-- Claim C10: on a non-empty subset with uniform row width and
per-column type consistency, for any attribute whose global questions
test that attribute (with thresholds in ascending order when the
column is numeric), the partition step of CreateTreeRecursive assigns
at least one row of the current subset to the group of every emitted
question (one per local candidate of that attribute), groups are as
many as candidates, and every group's rows come from the subset — so
the recursive call never receives an empty or missing (None) group and
leaf counts are never computed over zero rows. -/
theorem C10_nonempty_groups (ctx : TreeCtx) (colTypes : Nat → Bool)
    (qsOf : Nat → List Question) (data : List (List Val)) (a : Nat)
    (hq : ∀ j, j < ctx.attrCount → ctx.GlobalQuestions.get? j = some (qsOf j))
    (hty : ∀ row ∈ data, ∀ j v, row.get? j = some v → IsFloat v = colTypes j)
    (hrowlen : ∀ row ∈ data, row.length = ctx.attrCount)
    (hdef : ∀ row ∈ data, ∀ j, j < ctx.attrCount → ∀ q ∈ qsOf j, (q.Match row).isSome)
    (hne : data ≠ [])
    (ha : a < ctx.attrCount)
    (hattr : ∀ q ∈ qsOf a, q.Attribute = a)
    (hsorted : colTypes a = true →
      (qsOf a).Pairwise (fun p p2 => valLeb p.Value p2.Value = true)) :
    ∃ childUV cont groups,
      GetChildPossibleValues ctx data = some childUV ∧
      childUV.get? a = some (some cont) ∧
      splitSets (cont.toList.map (Question.mk a)) data = some groups ∧
      groups.length = cont.toList.length ∧
      ∀ i, i < groups.length → ∃ grp, groups.get? i = some (some grp) ∧ grp ≠ [] ∧
        ∀ r ∈ grp, r ∈ data := by
  obtain ⟨childUV, hUV, _, hUVcols⟩ :=
    GetChildPossibleValues_char ctx colTypes qsOf data hq hty hrowlen hdef hne
  have hentry := hUVcols a ha
  by_cases hcase : colTypes a = true
  · rw [if_pos hcase] at hentry
    set cs := dedupSort (data.filterMap (fun row => bucketVal (qsOf a) row)) with hcs
    have hnodup : cs.Nodup := nodup_dedupSort _
    have hcssorted : cs.Pairwise (fun x y => valLeb x y = true) := sorted_dedupSort _
    have hmemcs : ∀ x, x ∈ cs ↔ x ∈ data.filterMap (fun row => bucketVal (qsOf a) row) :=
      fun x => mem_dedupSort _ x
    have hnum : ∀ x ∈ cs, ∃ y : ℚ, x = .num y := by
      intro x hx
      obtain ⟨r0, hr0, q, hfm, hqv⟩ := collected_gen (qsOf a) data x ((hmemcs x).1 hx)
      obtain ⟨v0, hv0⟩ := row_get_val r0 a ctx.attrCount (hrowlen r0 hr0) ha
      have hv0f : IsFloat v0 = true := by rw [hty r0 hr0 a v0 hv0, hcase]
      cases v0 with
      | str s => simp [IsFloat] at hv0f
      | num v =>
        obtain ⟨c, hc, _, _⟩ :=
          firstMatching_min_num (qsOf a) r0 a v q hattr hv0 hfm (hsorted hcase)
        exact ⟨c, by rw [← hqv, hc]⟩
    have hdefall : ∀ r ∈ data, (firstMatchIdx (cs.map (Question.mk a)) r).isSome := by
      intro r hr
      obtain ⟨v, hv⟩ := row_get_val r a ctx.attrCount (hrowlen r hr) ha
      rw [Option.isSome_iff_ne_none]
      refine firstMatchIdx_isSome (cs.map (Question.mk a)) r
        (local_match_defined a cs r v hv ?_)
      intro _ x hx
      obtain ⟨y, hy⟩ := hnum x hx
      rw [hy]
      rfl
    have hhit : ∀ i, i < (cs.map (Question.mk a)).length → ∃ r ∈ data,
        firstMatchIdx (cs.map (Question.mk a)) r = some (some i) := by
      intro k hk
      rw [List.length_map] at hk
      obtain ⟨c, hc⟩ : ∃ c, cs.get? k = some c := by
        rcases h : cs.get? k with _ | c
        · rw [List.get?_eq_none] at h
          omega
        · exact ⟨c, rfl⟩
      obtain ⟨r0, hr0, q, hfm, hqv⟩ :=
        collected_gen (qsOf a) data c ((hmemcs c).1 (List.get?_mem hc))
      obtain ⟨v0, hv0⟩ := row_get_val r0 a ctx.attrCount (hrowlen r0 hr0) ha
      have hv0f : IsFloat v0 = true := by rw [hty r0 hr0 a v0 hv0, hcase]
      cases v0 with
      | str s => simp [IsFloat] at hv0f
      | num v =>
        obtain ⟨cq, hcq, hvle, hmin⟩ :=
          firstMatching_min_num (qsOf a) r0 a v q hattr hv0 hfm (hsorted hcase)
        have hcval : c = .num cq := by rw [← hqv, hcq]
        refine ⟨r0, hr0, ?_⟩
        apply numeric_first_local a cs r0 v cq k hv0 (by rw [← hcval]; exact hc) hvle
          ?_ hnodup hcssorted
        intro d hd hvd
        obtain ⟨r1, hr1, q1, hfm1, hq1v⟩ :=
          collected_gen (qsOf a) data (.num d) ((hmemcs _).1 hd)
        obtain ⟨i1, hgi1, _, _⟩ := firstMatching_char (qsOf a) r1 q1 hfm1
        exact hmin q1 (List.get?_mem hgi1) d hq1v hvd
    obtain ⟨groups, hsplit, hglen, hgs⟩ :=
      groups_all_nonempty (cs.map (Question.mk a)) data hdefall hhit
    refine ⟨childUV, .lst cs, groups, hUV, hentry, hsplit, ?_, hgs⟩
    rw [hglen, List.length_map]
    rfl
  · have hcase2 : colTypes a = false := by
      cases h : colTypes a
      · rfl
      · exact absurd h hcase
    rw [if_neg hcase] at hentry
    set cs := (data.filterMap (fun row => bucketVal (qsOf a) row)).foldl setAdd [] with hcs
    have hnodup : cs.Nodup := nodup_foldl_setAdd _ [] List.nodup_nil
    have hmemcs : ∀ x, x ∈ cs ↔ x ∈ data.filterMap (fun row => bucketVal (qsOf a) row) := by
      intro x
      rw [hcs, mem_foldl_setAdd]
      simp
    have hdefall : ∀ r ∈ data, (firstMatchIdx (cs.map (Question.mk a)) r).isSome := by
      intro r hr
      obtain ⟨v, hv⟩ := row_get_val r a ctx.attrCount (hrowlen r hr) ha
      have hvf : IsFloat v = false := by rw [hty r hr a v hv, hcase2]
      rw [Option.isSome_iff_ne_none]
      refine firstMatchIdx_isSome (cs.map (Question.mk a)) r
        (local_match_defined a cs r v hv ?_)
      intro h
      rw [hvf] at h
      simp at h
    have hhit : ∀ i, i < (cs.map (Question.mk a)).length → ∃ r ∈ data,
        firstMatchIdx (cs.map (Question.mk a)) r = some (some i) := by
      intro k hk
      rw [List.length_map] at hk
      obtain ⟨c, hc⟩ : ∃ c, cs.get? k = some c := by
        rcases h : cs.get? k with _ | c
        · rw [List.get?_eq_none] at h
          omega
        · exact ⟨c, rfl⟩
      obtain ⟨r0, hr0, q, hfm, hqv⟩ :=
        collected_gen (qsOf a) data c ((hmemcs c).1 (List.get?_mem hc))
      obtain ⟨v0, hv0⟩ := row_get_val r0 a ctx.attrCount (hrowlen r0 hr0) ha
      have hv0f : IsFloat v0 = false := by rw [hty r0 hr0 a v0 hv0, hcase2]
      obtain ⟨i1, hgi1, hmatch, _⟩ := firstMatching_char (qsOf a) r0 q hfm
      have hqa : q.Attribute = a := hattr q (List.get?_mem hgi1)
      have hv02 := hv0
      rw [List.get?_eq_getElem?] at hv02
      have hcv : c = v0 := by
        simp [Question.Match, hqa, hv02, hv0f] at hmatch
        rw [← hqv]
        exact ((pyEq_iff_eq v0 q.Value).1 hmatch).symm
      refine ⟨r0, hr0, ?_⟩
      exact cat_first_local a cs r0 v0 k hv0 hv0f (by rw [← hcv]; exact hc) hnodup
    obtain ⟨groups, hsplit, hglen, hgs⟩ :=
      groups_all_nonempty (cs.map (Question.mk a)) data hdefall hhit
    refine ⟨childUV, .set cs, groups, hUV, hentry, hsplit, ?_, hgs⟩
    rw [hglen, List.length_map]
    rfl

/-- Witness for C10_nonempty_groups: a two-row subset split on the
numeric first column, with ascending global thresholds 5 and 10; both
candidate groups receive a row. -/
theorem C10_nonempty_groups_witness :
    ∃ childUV cont groups,
      GetChildPossibleValues
        ⟨2, [none, none], [[⟨0, .num 5⟩, ⟨0, .num 10⟩], [⟨1, .str "Yes"⟩, ⟨1, .str "No"⟩]]⟩
        [[Val.num 1, Val.str "Yes"], [Val.num 10, Val.str "No"]] = some childUV ∧
      childUV.get? 0 = some (some cont) ∧
      splitSets (cont.toList.map (Question.mk 0))
        [[Val.num 1, Val.str "Yes"], [Val.num 10, Val.str "No"]] = some groups ∧
      groups.length = cont.toList.length ∧
      ∀ i, i < groups.length → ∃ grp, groups.get? i = some (some grp) ∧ grp ≠ [] ∧
        ∀ r ∈ grp, r ∈ [[Val.num 1, Val.str "Yes"], [Val.num 10, Val.str "No"]] :=
  C10_nonempty_groups
    ⟨2, [none, none], [[⟨0, .num 5⟩, ⟨0, .num 10⟩], [⟨1, .str "Yes"⟩, ⟨1, .str "No"⟩]]⟩
    (fun j => decide (j = 0))
    (fun j => if j = 0 then [⟨0, .num 5⟩, ⟨0, .num 10⟩] else [⟨1, .str "Yes"⟩, ⟨1, .str "No"⟩])
    [[Val.num 1, Val.str "Yes"], [Val.num 10, Val.str "No"]] 0
    (by decide)
    (by
      intro row hrow j v hv
      fin_cases hrow <;> rcases j with _ | _ | n <;> simp_all [IsFloat] <;>
        subst hv <;> rfl)
    (by decide) (by decide) (by decide) (by decide) (by decide) (by decide)
